import Mathlib

set_option autoImplicit false

namespace PhotoAI

/-!
Shallow embedding of the PhotoAI-Navigator photo-metadata catalog.

The repository has two store variants: a flat `photos` table whose `tags`
column holds a JSON-encoded array of strings (`src/api/main.py`), and a
normalized `images`/`tags`/`image_tags` schema (`src/database/db.py`),
plus a keyword-matching search placeholder
(`src/processing/image_processor.py`).  SQL statements executed through
`sqlite3` are embedded by modelling SQLite's documented semantics
(BINARY collation for `TEXT` comparison, the default `LIKE` with its
ASCII-only case folding and `%`/`_` wildcards, `NULL` propagation in
`WHERE` predicates, and the fact that foreign keys are only enforced when
`PRAGMA foreign_keys` is switched on, which the repository never does).
Python's `json` module is embedded by a character-level encoder/decoder
for arrays of strings, matching `json.dumps` with its default
`ensure_ascii=True` escaping.
-/

/-! ## Text utilities -/

/-- ASCII-range case folding: maps `A`–`Z` to `a`–`z` and leaves every
other character unchanged.  This is exactly the folding used by SQLite's
default `LIKE` operator (which folds ASCII only), and it agrees with
Python's `str.lower` on ASCII characters; Python's full Unicode lowering
is wider, so the search placeholder below takes its lowering function as
an explicit parameter instead of using this fold. -/
def asciiLower (c : Char) : Char :=
  if 65 ≤ c.toNat ∧ c.toNat ≤ 90 then Char.ofNat (c.toNat + 32) else c

/-- All suffixes of a list, longest first (the list itself included). -/
def tails : List Char → List (List Char)
  | [] => [[]]
  | c :: rest => (c :: rest) :: tails rest

/-- SQLite `LIKE` with default settings: `%` matches any sequence of
characters (possibly empty, expressed as "some suffix matches the rest
of the pattern"), `_` matches exactly one character, and any other
pattern character matches a text character equal to it up to ASCII case
folding. -/
def likeMatch (p : List Char) (s : List Char) : Bool :=
  match p with
  | [] => s.isEmpty
  | c :: ps =>
    if c = '%' then (tails s).any fun s2 => likeMatch ps s2
    else if c = '_' then
      match s with
      | [] => false
      | _ :: s2 => likeMatch ps s2
    else
      match s with
      | [] => false
      | d :: s2 => (asciiLower c == asciiLower d) && likeMatch ps s2

/-- Python's `in` operator on strings (substring containment), on
character lists.  `strIn pat s` is true iff `pat` occurs contiguously in
`s`; the empty pattern occurs in every string. -/
def strIn (pat s : List Char) : Bool :=
  pat.isPrefixOf s ||
    match s with
    | [] => false
    | _ :: s2 => strIn pat s2

/-- Byte-wise (BINARY collation) lexicographic `≤` used by SQLite when
comparing `TEXT` values with `>=` / `<=`.  Comparing UTF-8 byte sequences
lexicographically agrees with comparing scalar-value sequences. -/
def charListLe (a b : List Char) : Bool :=
  match a, b with
  | [], _ => true
  | _ :: _, [] => false
  | c :: cs, d :: ds => c.toNat < d.toNat || (c == d && charListLe cs ds)

/-- The common ASCII whitespace characters (space, tab, LF, VT, FF,
CR).  Python's no-argument `str.split()` splits on these among further
Unicode whitespace; `splitWs` below is used only through
`pySplitAscii`, an instantiation that coincides with `str.split()` on
the plain-ASCII inputs it is applied to. -/
def isWs (c : Char) : Bool :=
  c == ' ' || c == Char.ofNat 9 || c == Char.ofNat 10 ||
    c == Char.ofNat 13 || c == Char.ofNat 11 || c == Char.ofNat 12

/-- Accumulator pass for `splitWs`: `acc` holds the reversed characters
of the word currently being read. -/
def splitWsAux : List Char → List Char → List (List Char)
  | [], acc => if acc = [] then [] else [acc.reverse]
  | c :: rest, acc =>
    if isWs c then
      if acc = [] then splitWsAux rest []
      else acc.reverse :: splitWsAux rest []
    else splitWsAux rest (c :: acc)

/-- Python `str.split()` with no arguments: split on whitespace runs,
discarding empty pieces. -/
def splitWs (l : List Char) : List (List Char) :=
  splitWsAux l []

/-! ## JSON arrays of strings

`json.dumps` (default settings, `ensure_ascii=True`) and `json.loads`
restricted to the shape the flat store writes: arrays of strings. -/

/-- Lower-case hexadecimal digit, as printed by `json.dumps`'s
`\uXXXX` escapes. -/
def toHexDigit (n : Nat) : Char :=
  if n < 10 then Char.ofNat (48 + n) else Char.ofNat (87 + n)

/-- The four hex digits of a 16-bit value, most significant first. -/
def hex4 (n : Nat) : List Char :=
  [toHexDigit (n / 4096 % 16), toHexDigit (n / 256 % 16),
   toHexDigit (n / 16 % 16), toHexDigit (n % 16)]

/-- One character escaped as `json.dumps` (with its default
`ensure_ascii=True`) escapes it: `"` and `\` get a backslash, the five
short control escapes are used for backspace, tab, newline, form feed
and carriage return, the other printable ASCII characters are emitted
verbatim, and everything else becomes `\uXXXX` (a surrogate pair for
characters above the BMP). -/
def escChar (c : Char) : List Char :=
  if c = '"' then ['\\', '"']
  else if c = '\\' then ['\\', '\\']
  else if c = Char.ofNat 8 then ['\\', 'b']
  else if c = Char.ofNat 9 then ['\\', 't']
  else if c = Char.ofNat 10 then ['\\', 'n']
  else if c = Char.ofNat 12 then ['\\', 'f']
  else if c = Char.ofNat 13 then ['\\', 'r']
  else if 32 ≤ c.toNat ∧ c.toNat ≤ 126 then [c]
  else if c.toNat ≤ 65535 then '\\' :: 'u' :: hex4 c.toNat
  else
    ('\\' :: 'u' :: hex4 (55296 + (c.toNat - 65536) / 1024)) ++
      ('\\' :: 'u' :: hex4 (56320 + (c.toNat - 65536) % 1024))

/-- Escape every character of a string body. -/
def escList : List Char → List Char
  | [] => []
  | c :: cs => escChar c ++ escList cs

/-- A JSON string literal: quote, escaped body, quote. -/
def quoted (s : String) : List Char := '"' :: (escList s.data ++ ['"'])

/-- The `", "`-separated continuation of a JSON array body
(`json.dumps` uses `", "` as its default item separator). -/
def sepItems : List String → List Char
  | [] => []
  | s :: rest => ',' :: ' ' :: (quoted s ++ sepItems rest)

/-- The body of a JSON array of strings. -/
def dumpsItems : List String → List Char
  | [] => []
  | s :: rest => quoted s ++ sepItems rest

/-- `json.dumps` of a list of strings with default settings. -/
def jsonDumps (l : List String) : String :=
  ⟨'[' :: (dumpsItems l ++ [']'])⟩

/-- Value of one hexadecimal digit (`json.loads` accepts both cases). -/
def hexDigitVal (c : Char) : Option Nat :=
  if 48 ≤ c.toNat ∧ c.toNat ≤ 57 then some (c.toNat - 48)
  else if 97 ≤ c.toNat ∧ c.toNat ≤ 102 then some (c.toNat - 87)
  else if 65 ≤ c.toNat ∧ c.toNat ≤ 70 then some (c.toNat - 55)
  else none

/-- Consume four hexadecimal digits and return their 16-bit value. -/
def parseHex4 (l : List Char) : Option (Nat × List Char) :=
  match l with
  | a :: b :: c :: d :: rest =>
    match hexDigitVal a, hexDigitVal b, hexDigitVal c, hexDigitVal d with
    | some x1, some x2, some x3, some x4 =>
      some (((x1 * 16 + x2) * 16 + x3) * 16 + x4, rest)
    | _, _, _, _ => none
  | _ => none

/-- Decode what follows a `\u` in a JSON string: four hex digits, and —
when they form a high surrogate — a mandatory second `\uXXXX` low
surrogate, the pair combining into one scalar value. -/
def parseEscU (l : List Char) : Option (Char × List Char) :=
  match parseHex4 l with
  | none => none
  | some (n, rest) =>
    if n < 55296 ∨ 57344 ≤ n then some (Char.ofNat n, rest)
    else if n < 56320 then
      match rest with
      | g1 :: g2 :: rest1 =>
        if g1 = '\\' ∧ g2 = 'u' then
          match parseHex4 rest1 with
          | some (m, rest2) =>
            if 56320 ≤ m ∧ m < 57344 then
              some (Char.ofNat (65536 + (n - 55296) * 1024 + (m - 56320)), rest2)
            else none
          | none => none
        else none
      | _ => none
    else none

/-- One step of the JSON string-body parser, abstracted over the
continuation used for the rest of the input: closing quote ends the
string, a backslash introduces one of the escapes `json.loads` accepts,
unescaped control characters are rejected (strict mode), anything else
is taken verbatim. -/
def psbStep (ih : List Char → Option (List Char × List Char)) (l : List Char) :
    Option (List Char × List Char) :=
  match l with
  | [] => none
  | c :: rest =>
    if c = '"' then some ([], rest)
    else if c = '\\' then
      match rest with
      | [] => none
      | e :: rest2 =>
        if e = '"' then (ih rest2).map fun p => ('"' :: p.1, p.2)
        else if e = '\\' then (ih rest2).map fun p => ('\\' :: p.1, p.2)
        else if e = '/' then (ih rest2).map fun p => ('/' :: p.1, p.2)
        else if e = 'b' then (ih rest2).map fun p => (Char.ofNat 8 :: p.1, p.2)
        else if e = 't' then (ih rest2).map fun p => (Char.ofNat 9 :: p.1, p.2)
        else if e = 'n' then (ih rest2).map fun p => (Char.ofNat 10 :: p.1, p.2)
        else if e = 'f' then (ih rest2).map fun p => (Char.ofNat 12 :: p.1, p.2)
        else if e = 'r' then (ih rest2).map fun p => (Char.ofNat 13 :: p.1, p.2)
        else if e = 'u' then
          match parseEscU rest2 with
          | some (ch, rest3) => (ih rest3).map fun p => (ch :: p.1, p.2)
          | none => none
        else none
    else if c.toNat < 32 then none
    else (ih rest).map fun p => (c :: p.1, p.2)

/-- The string-body parser, iterated by fuel (each step consumes at
least one input character, so any fuel exceeding the decoded length is
enough). -/
def parseStrBodyF (fuel : Nat) : List Char → Option (List Char × List Char) :=
  Nat.rec (motive := fun _ => List Char → Option (List Char × List Char))
    (fun _ => none) (fun _ ih => psbStep ih) fuel

/-- Parse the body of a JSON string literal (everything after the
opening quote), returning the decoded characters and the input remaining
after the closing quote.  `length + 1` fuel always suffices because each
decoded character consumes at least one input character. -/
def parseStrBody (l : List Char) : Option (List Char × List Char) :=
  parseStrBodyF (l.length + 1) l

/-- Skip the JSON inter-token whitespace accepted by `json.loads`. -/
def skipWs : List Char → List Char
  | [] => []
  | c :: rest =>
    if c = ' ' ∨ c = Char.ofNat 9 ∨ c = Char.ofNat 10 ∨ c = Char.ofNat 13 then
      skipWs rest
    else c :: rest

/-- One step of the array-continuation parser: after an element, either
a comma followed by another string literal, or the closing bracket. -/
def parStep (ih : List Char → Option (List String × List Char)) (l : List Char) :
    Option (List String × List Char) :=
  match skipWs l with
  | ',' :: rest =>
    match skipWs rest with
    | '"' :: rest2 =>
      match parseStrBody rest2 with
      | some (s, rest3) => (ih rest3).map fun p => ((⟨s⟩ : String) :: p.1, p.2)
      | none => none
    | _ => none
  | ']' :: rest => some ([], rest)
  | _ => none

/-- Parse the continuation of a JSON array of strings after one element
has been consumed, iterated by fuel (each element consumes at least one
input character). -/
def parseArrayRest (fuel : Nat) : List Char → Option (List String × List Char) :=
  Nat.rec (motive := fun _ => List Char → Option (List String × List Char))
    (fun _ => none) (fun _ ih => parStep ih) fuel

/-- `json.loads` restricted to the shape the flat store persists:
a JSON array of strings (the only value the code ever writes into the
`tags` column).  Any other document shape is a decode failure. -/
def jsonLoads (s : String) : Option (List String) :=
  match skipWs s.data with
  | '[' :: rest =>
    match skipWs rest with
    | '"' :: rest2 =>
      match parseStrBody rest2 with
      | some (item, rest3) =>
        match parseArrayRest (rest3.length + 1) rest3 with
        | some (items, rest4) =>
          if (skipWs rest4).isEmpty then some ((⟨item⟩ : String) :: items) else none
        | none => none
      | none => none
    | ']' :: rest2 => if (skipWs rest2).isEmpty then some [] else none
    | _ => none
  | _ => none

/-! ## The flat store (`src/api/main.py`)

One `photos` table: `id` (integer primary key), `path` (unique), plus
`filename`, `date_taken`, `location`, `camera_model`, `tags` text
columns; `tags` holds a JSON-encoded array, or `NULL`. -/

structure PhotoRow where
  id : Nat
  path : String
  filename : String
  date_taken : Option String
  location : Option String
  camera_model : Option String
  tags : Option String
deriving DecidableEq

/-- The flat `photos` table, rows in natural (rowid) order. -/
structure FlatDB where
  rows : List PhotoRow
deriving DecidableEq

/-- The `Photo` pydantic model returned by `db_get_photos`. -/
structure Photo where
  id : Nat
  path : String
  filename : String
  date_taken : Option String
  location : Option String
  camera_model : Option String
  tags : List String
deriving DecidableEq

/-- The `PhotoFilter` pydantic model. -/
structure PhotoFilter where
  date_from : Option String := none
  date_to : Option String := none
  tags : Option (List String) := none
  location : Option String := none
  camera_model : Option String := none

/-- `INTEGER PRIMARY KEY` rowid assignment for a fresh insert: one more
than the largest id in the table. -/
def nextRowId (ids : List Nat) : Nat :=
  ids.foldr (fun a b => max a b) 0 + 1

/-- A filter parameter guards its `WHERE to clause with Python truthiness
(`if filters.x:`): `None` and the empty string add no condition. -/
def optCondS (o : Option String) (f : String → Bool) : Bool :=
  match o with
  | none => true
  | some s => if s = "" then true else f s

/-- Truthiness guard for a list-valued parameter: `None` and `[]` add no
condition. -/
def optCondL (o : Option (List String)) (f : List String → Bool) : Bool :=
  match o with
  | none => true
  | some l => if l = [] then true else f l

/-- The pattern `f"%{v}%"` that the code passes to `LIKE`. -/
def likePat (v : String) : List Char := '%' :: (v.data ++ ['%'])

/-- `field LIKE '%v%'`: `NULL` fields fail the predicate (a SQL `NULL`
comparison is not true). -/
def sqlLike (field : Option String) (v : String) : Bool :=
  match field with
  | none => false
  | some f => likeMatch (likePat v) f.data

/-- `field >= bound` on `TEXT` (BINARY collation); `NULL` fails. -/
def sqlGe (field : Option String) (bound : String) : Bool :=
  match field with
  | none => false
  | some f => charListLe bound.data f.data

/-- `field <= bound` on `TEXT` (BINARY collation); `NULL` fails. -/
def sqlLe (field : Option String) (bound : String) : Bool :=
  match field with
  | none => false
  | some f => charListLe f.data bound.data

/-- The pattern `f"%\"{tag}\"%"` used for the JSON tags column. -/
def tagLikePat (t : String) : List Char :=
  '%' :: '"' :: (t.data ++ ['"', '%'])

/-- The `WHERE` clause assembled by `db_get_photos`: one conjunct per
truthy filter parameter, in particular one `tags LIKE '%"t"%'` conjunct
per requested tag. -/
def rowMatches (f : PhotoFilter) (r : PhotoRow) : Bool :=
  optCondS f.date_from (fun d => sqlGe r.date_taken d) &&
  optCondS f.date_to (fun d => sqlLe r.date_taken d) &&
  optCondS f.location (fun v => sqlLike r.location v) &&
  optCondS f.camera_model (fun v => sqlLike r.camera_model v) &&
  optCondL f.tags (fun ts => ts.all fun t =>
    match r.tags with
    | none => false
    | some tj => likeMatch (tagLikePat t) tj.data)

/-- `json.loads(row['tags']) if row['tags'] else []` — Python truthiness
treats both `NULL` and the empty string as "no tags". -/
def decodeTags : Option String → Option (List String)
  | none => some []
  | some s => if s = "" then some [] else jsonLoads s

/-- Build the `Photo` response object for one returned row; `none`
models the `json.loads` exception on an undecodable `tags` value. -/
def rowToPhoto (r : PhotoRow) : Option Photo :=
  (decodeTags r.tags).map fun tl =>
    ⟨r.id, r.path, r.filename, r.date_taken, r.location, r.camera_model, tl⟩

/-- The response-building loop of `db_get_photos`: decode each returned
row in order; a `json.loads` failure aborts the request (`none`). -/
def decodePhotos : List PhotoRow → Option (List Photo)
  | [] => some []
  | r :: rest =>
    match rowToPhoto r with
    | none => none
    | some p => (decodePhotos rest).map fun ps => p :: ps

/-- `db_get_photos`: run the assembled query and decode each returned
row. -/
def db_get_photos (f : PhotoFilter) (db : FlatDB) : Option (List Photo) :=
  decodePhotos (db.rows.filter (rowMatches f))

/-- The tag set written back by `db_update_photo_tags`:
`set(current)`, then `.update(add)` if truthy, then
`.difference_update(remove)` if truthy.  The Python `set` is embedded as
a duplicate-free list (one fixed enumeration order; no claim depends on
the order, only on the underlying set). -/
def pyNewTags (cur : List String) (adds rems : Option (List String)) : List String :=
  let s1 := cur.dedup
  let s2 := match adds with
    | some l => if l = [] then s1 else s1 ++ (l.dedup.filter fun x => !(s1.contains x))
    | none => s1
  match rems with
  | some l => if l = [] then s2 else s2.filter fun x => !(l.contains x)
  | none => s2

/-- `db_update_photo_tags`: look up the row (`SELECT … WHERE id = ?`,
first match), return `False` if absent; otherwise decode the stored
tags, apply add-then-remove set updates, and `UPDATE` the row with the
re-encoded JSON array.  The outer `none` models the `json.loads`
exception on an undecodable stored value. -/
def db_update_photo_tags (db : FlatDB) (pid : Nat)
    (addTags removeTags : Option (List String)) : Option (Bool × FlatDB) :=
  match db.rows.find? (fun r => r.id == pid) with
  | none => some (false, db)
  | some row =>
    match decodeTags row.tags with
    | none => none
    | some cur =>
      let nj := jsonDumps (pyNewTags cur addTags removeTags)
      some (true, ⟨db.rows.map fun r =>
        if r.id == pid then { r with tags := some nj } else r⟩)

/-- The `PUT /photos/{id}/tags` handler: 404 when the update reports the
photo missing, success otherwise. -/
def update_photo_tags_endpoint (db : FlatDB) (pid : Nat)
    (addTags removeTags : Option (List String)) : Option (Nat × FlatDB) :=
  (db_update_photo_tags db pid addTags removeTags).map fun p =>
    (if p.1 then 200 else 404, p.2)

/-- The `DELETE /photos/{id}/tags` handler funnels into the same update
operation with only `remove_tags` set. -/
def delete_photo_tags_endpoint (db : FlatDB) (pid : Nat)
    (tagsToDelete : List String) : Option (Nat × FlatDB) :=
  update_photo_tags_endpoint db pid none (some tagsToDelete)

/-- One `INSERT` of `db_add_sample_data`: a duplicate path raises
`IntegrityError`, which the code catches and skips. -/
def insertSample (db : FlatDB)
    (e : String × String × String × String × String × List String) : FlatDB :=
  if db.rows.any fun r => r.path == e.1 then db
  else ⟨db.rows ++ [⟨nextRowId (db.rows.map (·.id)), e.1, e.2.1, some e.2.2.1,
    some e.2.2.2.1, some e.2.2.2.2.1, some (jsonDumps e.2.2.2.2.2)⟩]⟩

/-- The sample rows hard-coded in `db_add_sample_data`. -/
def samplePhotos : List (String × String × String × String × String × List String) :=
  [("C:/photos/vacation/beach.jpg", "beach.jpg", "2023-07-15 10:30:00",
      "Пляж", "Canon EOS R5", ["відпустка", "пляж", "літо"]),
   ("C:/photos/city/skyline.png", "skyline.png", "2023-01-20 18:00:00",
      "Центр міста", "Sony Alpha 7 III", ["місто", "ніч", "архітектура"]),
   ("C:/photos/nature/mountain.jpeg", "mountain.jpeg", "2022-09-01 08:00:00",
      "Гори", "Nikon D850", ["природа", "похід", "пейзаж"]),
   ("C:/photos/family/birthday.jpg", "birthday.jpg", "2023-03-10 14:00:00",
      "Дім", "iPhone 13 Pro", ["сім\u0027я", "день народження", "свято"])]

/-- `db_add_sample_data`: insert the four sample rows, skipping any whose
path is already present. -/
def db_add_sample_data (db : FlatDB) : FlatDB :=
  samplePhotos.foldl insertSample db

/-! ## The normalized store (`src/database/db.py`)

`images` / `tags` / `image_tags` with `ON DELETE CASCADE` declared on the
join table.  The connection never executes `PRAGMA foreign_keys = ON`, so
SQLite does not enforce the foreign keys and does not run the cascades:
deletes on `tags` leave `image_tags` untouched. -/

/-- The `REAL` latitude/longitude columns.  The values are only stored
and returned verbatim — no claim involves floating-point arithmetic — so
they are embedded as an opaque numeric payload. -/
abbrev Coord := Int

structure ImageRow where
  id : Nat
  file_path : String
  capture_date : String
  camera_model : Option String
  latitude : Option Coord
  longitude : Option Coord
deriving DecidableEq

structure TagRow where
  id : Nat
  name : String
deriving DecidableEq

/-- The normalized schema: `image_tags` is the set of
`(image_id, tag_id)` association rows. -/
structure NormDB where
  images : List ImageRow
  tags : List TagRow
  image_tags : List (Nat × Nat)
deriving DecidableEq

/-- `add_image`: `INSERT INTO images …`; a duplicate `file_path` raises
`IntegrityError`, which is caught: the function returns `None` and the
table is unchanged.  On success it returns the fresh rowid. -/
def add_image (db : NormDB) (file_path capture_date : String)
    (camera_model : Option String) (latitude longitude : Option Coord) :
    Option Nat × NormDB :=
  if db.images.any fun r => r.file_path == file_path then
    (none, db)
  else
    let i := nextRowId (db.images.map (·.id))
    (some i, { db with images :=
      db.images ++ [⟨i, file_path, capture_date, camera_model, latitude, longitude⟩] })

/-- `delete_tag`: `DELETE FROM tags WHERE id = ?` and report
`rowcount > 0`.  Because `PRAGMA foreign_keys` is never enabled on the
connection, the declared `ON DELETE CASCADE` does not run: `image_tags`
is left as is. -/
def delete_tag (db : NormDB) (tag_id : Nat) : Bool × NormDB :=
  let remaining := db.tags.filter fun t => t.id != tag_id
  (decide (remaining.length < db.tags.length), { db with tags := remaining })

/-- The distinct tag ids that the `images ⋈ image_tags ⋈ tags` join
produces for one image under the `t.name IN (…)` restriction — the
quantity `COUNT(DISTINCT t.id)` of the `HAVING` clause. -/
def matchingTagIds (db : NormDB) (names : List String) (img : ImageRow) : List Nat :=
  ((db.tags.filter fun t =>
      names.contains t.name && db.image_tags.contains (img.id, t.id)).map (·.id)).dedup

/-- `get_images_by_tags`: empty request short-circuits to `[]`;
otherwise the images whose distinct matched-tag count equals the length
of the request list (`HAVING COUNT(DISTINCT t.id) = ?`).  An image with
no matching join row forms no group, and equally fails the count test
here since the request is non-empty. -/
def get_images_by_tags (db : NormDB) (names : List String) : List ImageRow :=
  if names = [] then []
  else db.images.filter fun i => (matchingTagIds db names i).length == names.length

/-- `get_images_by_metadata`: conjunctive date-range and camera-model
`LIKE` filters, each guarded by Python truthiness. -/
def get_images_by_metadata (db : NormDB)
    (start_date end_date camera_model : Option String) : List ImageRow :=
  db.images.filter fun i =>
    optCondS start_date (fun d => charListLe d.data i.capture_date.data) &&
    optCondS end_date (fun d => charListLe i.capture_date.data d.data) &&
    optCondS camera_model (fun v =>
      match i.camera_model with
      | none => false
      | some cm => likeMatch (likePat v) cm.data)

/-! ## The processing module (`src/processing/image_processor.py`) -/

/-- One entry of the `image_metadata_list` argument of
`semantic_search_placeholder`. -/
structure ImageMeta where
  path : String
  tags : List String
  ocr_text : String
deriving DecidableEq

/-- `semantic_search_placeholder`: keep a record when
`any(query_word in tag.lower() for query_word in query_lower.split()
for tag in tags)` — an existential over *pairs* (some token in some
tag) — or when the whole lowered query is a substring of the lowered
OCR text.  The two builtin library calls are taken as explicit
function parameters of the embedding: `lower` stands for `str.lower()`
(Python's full Unicode case mapping) and `split` for the no-argument
`str.split()` (split on Unicode whitespace runs, discarding empty
pieces); the membership theorem below is proved for *every* choice of
these two functions, hence in particular for the Python library
functions themselves.  The `in` operator (substring containment) is
embedded concretely as `strIn`. -/
def semantic_search_placeholder (lower : String → String)
    (split : String → List String) (query : String) (metas : List ImageMeta) :
    List String :=
  let ql := lower query
  metas.filterMap fun m =>
    let foundInTags := (split ql).any fun w =>
      m.tags.any fun tg => strIn w.data (lower tg).data
    let foundInOcr := strIn ql.data (lower m.ocr_text).data
    if foundInTags || foundInOcr then some m.path else none

/-- `str.lower` restricted to ASCII strings: on a string of ASCII
characters Python's full Unicode lowercase mapping is exactly the
`A`–`Z` → `a`–`z` fold, character by character. -/
def pyLowerAscii (s : String) : String := ⟨s.data.map asciiLower⟩

/-- The no-argument `str.split()` on strings whose only whitespace is
the common ASCII whitespace and whose other characters are not
whitespace: split on runs of it, discarding empty pieces.  On such
strings (for example `"cat dog"`) this is exactly Python's
behaviour. -/
def pySplitAscii (s : String) : List String := (splitWs s.data).map fun w => ⟨w⟩

/-! ## The cloud-sync endpoint (`src/api/main.py`) -/

/-- Outcome of `POST /cloud/sync`: the HTTP status and the background
tasks scheduled by the handler. -/
structure SyncOutcome where
  status : Nat
  scheduled : List String
deriving DecidableEq

/-- `initiate_cloud_sync`: dispatch on the service name; the two
supported names schedule their sync stub as a background task and return
an acknowledgement, anything else raises `HTTPException(400)` without
scheduling anything. -/
def initiate_cloud_sync (service : String) : SyncOutcome :=
  if service = "google_drive" then ⟨200, ["sync_with_google_drive"]⟩
  else if service = "dropbox" then ⟨200, ["sync_with_dropbox"]⟩
  else ⟨400, []⟩

/-! ## Well-formedness and spec-side comparison predicates -/

/-- The flat-schema tags-column invariant: `NULL`, or the `json.dumps`
encoding of a duplicate-free list of strings. -/
def TagsWF (r : PhotoRow) : Prop :=
  r.tags = none ∨ ∃ l : List String, l.Nodup ∧ r.tags = some (jsonDumps l)

/-- Well-formed flat table: primary-key ids are unique and every row
satisfies the tags-column invariant. -/
def FlatWF (db : FlatDB) : Prop :=
  (db.rows.map (·.id)).Nodup ∧ ∀ r ∈ db.rows, TagsWF r

/-- Well-formed normalized store: `images.id`, `tags.id` and the unique
`tags.name` column contain no duplicates. -/
def NormWF (db : NormDB) : Prop :=
  (db.images.map (·.id)).Nodup ∧ (db.tags.map (·.id)).Nodup ∧
    (db.tags.map (·.name)).Nodup

/-- A "plain" character for the purposes of tag filtering in the flat
store: printable ASCII that needs no JSON escaping (no quote, no
backslash) and carries no `LIKE` wildcard meaning (no `%`, no `_`). -/
def PlainChar (c : Char) : Prop :=
  32 ≤ c.toNat ∧ c.toNat ≤ 126 ∧ c ≠ '"' ∧ c ≠ '\\' ∧ c ≠ '%' ∧ c ≠ '_'

instance (c : Char) : Decidable (PlainChar c) := by
  unfold PlainChar
  exact inferInstance

/-- A JSON string chunk: quote, body, quote (character-list level). -/
def quotedChunk (e : List Char) : List Char := '"' :: (e ++ ['"'])

/-- The character shape of a dumped array body whose entries need no
escaping: the first chunk followed by `", "`-prefixed chunks. -/
def chunksBody (es : List (List Char)) : List Char :=
  match es with
  | [] => []
  | e :: rest =>
    quotedChunk e ++ (rest.map fun e2 => ',' :: ' ' :: quotedChunk e2).flatten

/-- Modelled from the spec's words for claim C3, for comparison with the
code: a filter value matching "as an exact, case-sensitive substring
with no wildcard interpretation". -/
def specCaseSensitiveSub (pat s : List Char) : Bool :=
  pat.isPrefixOf s ||
    match s with
    | [] => false
    | _ :: s2 => specCaseSensitiveSub pat s2

/-- Modelled from the spec's words for claim C2, for comparison with the
code: keep a record when *every* split token of the lowered query
appears in some lowered tag, or the whole lowered query is a substring
of the lowered extracted text — over the same `lower`/`split` library
parameters as the code. -/
def specSearchKeeps (lower : String → String) (split : String → List String)
    (query : String) (m : ImageMeta) : Prop :=
  (∀ w ∈ split (lower query),
      ∃ tg ∈ m.tags, strIn w.data (lower tg).data = true) ∨
    strIn (lower query).data (lower m.ocr_text).data = true

instance (lower : String → String) (split : String → List String)
    (query : String) (m : ImageMeta) :
    Decidable (specSearchKeeps lower split query m) := by
  unfold specSearchKeeps
  exact inferInstance

/-! ## Round trip of the JSON encoding -/

theorem hexDigitVal_toHexDigit {n : Nat} (h : n < 16) :
    hexDigitVal (toHexDigit n) = some n := by
  interval_cases n <;> decide

/-- Every `Char` is a Unicode scalar value: below the surrogate range or
above it and below `0x110000`. -/
theorem char_scalar (c : Char) :
    c.toNat < 55296 ∨ (57343 < c.toNat ∧ c.toNat < 1114112) := by
  rcases c.valid with h | ⟨h1, h2⟩
  · exact Or.inl (UInt32.toNat_lt_of_lt (by norm_num) h)
  · exact Or.inr ⟨UInt32.lt_toNat_of_lt (by norm_num) h1,
      UInt32.toNat_lt_of_lt (by norm_num) h2⟩

theorem hex_reconstruct {t : Nat} (h : t < 65536) :
    ((t / 4096 % 16 * 16 + t / 256 % 16) * 16 + t / 16 % 16) * 16 + t % 16 = t := by
  omega

/-- One-step unfolding of the fueled string-body parser. -/
theorem parseStrBodyF_succ (fuel : Nat) (l : List Char) :
    parseStrBodyF (fuel + 1) l = psbStep (parseStrBodyF fuel) l := rfl

/-- One-step unfolding of the fueled array-continuation parser. -/
theorem parseArrayRest_succ (fuel : Nat) (l : List Char) :
    parseArrayRest (fuel + 1) l = parStep (parseArrayRest fuel) l := rfl

theorem skipWs_cons_of {c : Char} (x : List Char)
    (h : ¬(c = ' ' ∨ c = Char.ofNat 9 ∨ c = Char.ofNat 10 ∨ c = Char.ofNat 13)) :
    skipWs (c :: x) = c :: x := by
  simp only [skipWs]
  rw [if_neg h]

theorem skipWs_cons_ws {c : Char} (x : List Char)
    (h : c = ' ' ∨ c = Char.ofNat 9 ∨ c = Char.ofNat 10 ∨ c = Char.ofNat 13) :
    skipWs (c :: x) = skipWs x := by
  simp only [skipWs]
  rw [if_pos h]

/-- `parseHex4` inverts `hex4` for 16-bit values. -/
theorem parseHex4_hex4 {n : Nat} (h : n < 65536) (X : List Char) :
    parseHex4 (hex4 n ++ X) = some (n, X) := by
  have e1 : hexDigitVal (toHexDigit (n / 4096 % 16)) = some (n / 4096 % 16) :=
    hexDigitVal_toHexDigit (Nat.mod_lt _ (by norm_num))
  have e2 : hexDigitVal (toHexDigit (n / 256 % 16)) = some (n / 256 % 16) :=
    hexDigitVal_toHexDigit (Nat.mod_lt _ (by norm_num))
  have e3 : hexDigitVal (toHexDigit (n / 16 % 16)) = some (n / 16 % 16) :=
    hexDigitVal_toHexDigit (Nat.mod_lt _ (by norm_num))
  have e4 : hexDigitVal (toHexDigit (n % 16)) = some (n % 16) :=
    hexDigitVal_toHexDigit (Nat.mod_lt _ (by norm_num))
  simp only [hex4, List.cons_append, List.nil_append, parseHex4, e1, e2, e3, e4]
  rw [hex_reconstruct h]

/-- `parseEscU` decodes the four hex digits of a non-surrogate scalar
value. -/
theorem parseEscU_hex4 {n : Nat} (h65 : n < 65536)
    (hr : n < 55296 ∨ 57344 ≤ n) (X : List Char) :
    parseEscU (hex4 n ++ X) = some (Char.ofNat n, X) := by
  rw [parseEscU.eq_def, parseHex4_hex4 h65]
  show (if n < 55296 ∨ 57344 ≤ n then some (Char.ofNat n, X)
    else if n < 56320 then
      (match X with
      | g1 :: g2 :: rest1 =>
        if g1 = '\\' ∧ g2 = 'u' then
          match parseHex4 rest1 with
          | some (m, rest2) =>
            if 56320 ≤ m ∧ m < 57344 then
              some (Char.ofNat (65536 + (n - 55296) * 1024 + (m - 56320)), rest2)
            else none
          | none => none
        else none
      | _ => none)
    else none) = some (Char.ofNat n, X)
  rw [if_pos hr]

/-- `parseEscU` decodes a surrogate pair back to the astral scalar value
it encodes. -/
theorem parseEscU_surrogate {t : Nat} (h1 : 65536 ≤ t) (h2 : t < 1114112)
    (X : List Char) :
    parseEscU (hex4 (55296 + (t - 65536) / 1024) ++
      ('\\' :: 'u' :: (hex4 (56320 + (t - 65536) % 1024) ++ X))) =
      some (Char.ofNat t, X) := by
  have hhi : 55296 + (t - 65536) / 1024 < 65536 := by omega
  have hmod := Nat.mod_lt (t - 65536) (show 0 < 1024 by norm_num)
  have hlo : 56320 + (t - 65536) % 1024 < 65536 := by omega
  set n1 := 55296 + (t - 65536) / 1024 with hn1
  set n2 := 56320 + (t - 65536) % 1024 with hn2
  have hnr1 : ¬ (n1 < 55296 ∨ 57344 ≤ n1) := by rw [hn1]; omega
  have hnr2 : n1 < 56320 := by rw [hn1]; omega
  have hok : 56320 ≤ n2 ∧ n2 < 57344 := by rw [hn2]; omega
  have hcomb : 65536 + (n1 - 55296) * 1024 + (n2 - 56320) = t := by
    rw [hn1, hn2]; omega
  rw [parseEscU.eq_def, parseHex4_hex4 hhi]
  show (if n1 < 55296 ∨ 57344 ≤ n1 then
      some (Char.ofNat n1, '\\' :: 'u' :: (hex4 n2 ++ X))
    else if n1 < 56320 then
      (match '\\' :: 'u' :: (hex4 n2 ++ X) with
      | g1 :: g2 :: rest1 =>
        if g1 = '\\' ∧ g2 = 'u' then
          match parseHex4 rest1 with
          | some (m, rest2) =>
            if 56320 ≤ m ∧ m < 57344 then
              some (Char.ofNat (65536 + (n1 - 55296) * 1024 + (m - 56320)), rest2)
            else none
          | none => none
        else none
      | _ => none)
    else none) = some (Char.ofNat t, X)
  rw [if_neg hnr1, if_pos hnr2]
  show (if ('\\' : Char) = '\\' ∧ ('u' : Char) = 'u' then
      match parseHex4 (hex4 n2 ++ X) with
      | some (m, rest2) =>
        if 56320 ≤ m ∧ m < 57344 then
          some (Char.ofNat (65536 + (n1 - 55296) * 1024 + (m - 56320)), rest2)
        else none
      | none => none
    else none) = some (Char.ofNat t, X)
  rw [if_pos ⟨rfl, rfl⟩, parseHex4_hex4 hlo]
  show (if 56320 ≤ n2 ∧ n2 < 57344 then
      some (Char.ofNat (65536 + (n1 - 55296) * 1024 + (n2 - 56320)), X)
    else none) = some (Char.ofNat t, X)
  rw [if_pos hok, hcomb]


/-- Parsing undoes escaping, one character (and one unit of fuel) at a
time. -/
theorem psbF_escChar (c : Char) (X s r : List Char) (fuel : Nat)
    (h : parseStrBodyF fuel X = some (s, r)) :
    parseStrBodyF (fuel + 1) (escChar c ++ X) = some (c :: s, r) := by
  rw [parseStrBodyF_succ]
  by_cases hq : c = '"'
  · subst hq; simp [escChar, psbStep, h]
  by_cases hbs : c = '\\'
  · subst hbs; simp [escChar, psbStep, h]
  by_cases h8 : c = Char.ofNat 8
  · subst h8; simp [escChar, psbStep, h]
  by_cases h9 : c = Char.ofNat 9
  · subst h9; simp [escChar, psbStep, h]
  by_cases h10 : c = Char.ofNat 10
  · subst h10; simp [escChar, psbStep, h]
  by_cases h12 : c = Char.ofNat 12
  · subst h12; simp [escChar, psbStep, h]
  by_cases h13 : c = Char.ofNat 13
  · subst h13; simp [escChar, psbStep, h]
  by_cases hpr : 32 ≤ c.toNat ∧ c.toNat ≤ 126
  · have hesc : escChar c = [c] := by
      rw [escChar, if_neg hq, if_neg hbs, if_neg h8, if_neg h9, if_neg h10,
        if_neg h12, if_neg h13, if_pos hpr]
    rw [hesc, List.cons_append, List.nil_append]
    simp only [psbStep]
    rw [if_neg hq, if_neg hbs, if_neg (by omega : ¬ c.toNat < 32), h]
    rfl
  · by_cases hbmp : c.toNat ≤ 65535
    · have hesc : escChar c = '\\' :: 'u' :: hex4 c.toNat := by
        rw [escChar, if_neg hq, if_neg hbs, if_neg h8, if_neg h9, if_neg h10,
          if_neg h12, if_neg h13, if_neg hpr, if_pos hbmp]
      have hrange : c.toNat < 55296 ∨ 57344 ≤ c.toNat := by
        rcases char_scalar c with h' | ⟨h1, _⟩
        · exact Or.inl h'
        · exact Or.inr (by omega)
      have hu := parseEscU_hex4 (n := c.toNat) (by omega) hrange X
      rw [hesc]
      simp [psbStep, hu, h]
    · have ht : 65536 ≤ c.toNat := by omega
      have hup : c.toNat < 1114112 := by
        rcases char_scalar c with h' | ⟨_, h2⟩
        · omega
        · exact h2
      have hesc : escChar c =
          ('\\' :: 'u' :: hex4 (55296 + (c.toNat - 65536) / 1024)) ++
            ('\\' :: 'u' :: hex4 (56320 + (c.toNat - 65536) % 1024)) := by
        rw [escChar, if_neg hq, if_neg hbs, if_neg h8, if_neg h9, if_neg h10,
          if_neg h12, if_neg h13, if_neg hpr, if_neg hbmp]
      have hu := parseEscU_surrogate ht hup X
      rw [hesc]
      simp [psbStep, hu, h]

/-- Parsing undoes escaping for a whole string body, for any fuel
exceeding the number of decoded characters. -/
theorem psbF_escList (cs : List Char) :
    ∀ (fuel : Nat), cs.length < fuel → ∀ (rest : List Char),
      parseStrBodyF fuel (escList cs ++ '"' :: rest) = some (cs, rest) := by
  induction cs with
  | nil =>
    intro fuel hf rest
    match fuel, hf with
    | fuel + 1, _ =>
      rw [parseStrBodyF_succ]
      simp [escList, psbStep]
  | cons c cs ih =>
    intro fuel hf rest
    match fuel, hf with
    | fuel + 1, hf =>
      have hlen : cs.length < fuel := by
        simp only [List.length_cons] at hf
        omega
      rw [escList, List.append_assoc]
      exact psbF_escChar c _ _ _ fuel (ih fuel hlen rest)

theorem escChar_length_pos (c : Char) : 1 ≤ (escChar c).length := by
  rw [escChar]
  split_ifs <;> simp [hex4]

theorem escList_length_ge (cs : List Char) : cs.length ≤ (escList cs).length := by
  induction cs with
  | nil => simp [escList]
  | cons c cs ih =>
    rw [escList]
    simp only [List.length_append, List.length_cons]
    have := escChar_length_pos c
    omega

/-- Parsing undoes escaping for a whole string body. -/
theorem parseStrBody_escList (cs rest : List Char) :
    parseStrBody (escList cs ++ '"' :: rest) = some (cs, rest) := by
  have h := escList_length_ge cs
  apply psbF_escList
  simp only [List.length_append, List.length_cons]
  omega

/-- Evaluation of one array-continuation step on the shape `sepItems`
emits. -/
theorem parStep_sep (ih : List Char → Option (List String × List Char))
    (s : String) (T : List Char) :
    parStep ih (',' :: ' ' :: '"' :: (escList s.data ++ '"' :: T)) =
      (ih T).map fun p => (s :: p.1, p.2) := by
  rw [parStep.eq_def]
  rw [skipWs_cons_of _ (by decide)]
  show (match skipWs (' ' :: '"' :: (escList s.data ++ '"' :: T)) with
    | '"' :: rest2 =>
      match parseStrBody rest2 with
      | some (s2, rest3) => (ih rest3).map fun p => ((⟨s2⟩ : String) :: p.1, p.2)
      | none => none
    | _ => none) = (ih T).map fun p => (s :: p.1, p.2)
  rw [skipWs_cons_ws _ (by decide), skipWs_cons_of _ (by decide)]
  show (match parseStrBody (escList s.data ++ '"' :: T) with
    | some (s2, rest3) => (ih rest3).map fun p => ((⟨s2⟩ : String) :: p.1, p.2)
    | none => none) = (ih T).map fun p => (s :: p.1, p.2)
  rw [parseStrBody_escList]

/-- The separator-prefixed continuation of a dumped array parses back to
its items whenever the fuel covers the item count. -/
theorem parseArrayRest_sepItems (items : List String) :
    ∀ (fuel : Nat), items.length < fuel → ∀ (rest : List Char),
      parseArrayRest fuel (sepItems items ++ ']' :: rest) = some (items, rest) := by
  induction items with
  | nil =>
    intro fuel hf rest
    match fuel, hf with
    | fuel + 1, _ =>
      rw [parseArrayRest_succ]
      show parStep (parseArrayRest fuel) (']' :: rest) = some ([], rest)
      rw [parStep.eq_def]
      rw [skipWs_cons_of _ (by decide)]
      rfl
  | cons s ss ih =>
    intro fuel hf rest
    match fuel, hf with
    | fuel + 1, hf =>
      have hlen : ss.length < fuel := by
        simp only [List.length_cons] at hf
        omega
      have hshape : sepItems (s :: ss) ++ ']' :: rest =
          ',' :: ' ' :: '"' :: (escList s.data ++ '"' :: (sepItems ss ++ ']' :: rest)) := by
        simp [sepItems, quoted, List.append_assoc]
      rw [parseArrayRest_succ, hshape, parStep_sep, ih fuel hlen rest]
      rfl

/-- `sepItems` emits at least one character per item. -/
theorem length_le_sepItems (items : List String) :
    items.length ≤ (sepItems items).length := by
  induction items with
  | nil => simp [sepItems]
  | cons s ss ih =>
    simp only [sepItems, quoted, List.length_cons, List.cons_append,
      List.length_append]
    omega

/-- The JSON round trip of the flat store's tags column: decoding a
dumped array of strings gives back exactly that list. -/
theorem jsonLoads_jsonDumps (l : List String) :
    jsonLoads (jsonDumps l) = some l := by
  cases l with
  | nil => rfl
  | cons s ss =>
    have hshape : ('[' : Char) :: (dumpsItems (s :: ss) ++ [']']) =
        '[' :: '"' :: (escList s.data ++ '"' :: (sepItems ss ++ [']'])) := by
      simp [dumpsItems, quoted, List.append_assoc]
    have hfuel : ss.length < (sepItems ss ++ [']']).length + 1 := by
      have := length_le_sepItems ss
      simp only [List.length_append, List.length_cons, List.length_nil]
      omega
    have harr := parseArrayRest_sepItems ss ((sepItems ss ++ [']']).length + 1) hfuel []
    show jsonLoads ⟨'[' :: (dumpsItems (s :: ss) ++ [']'])⟩ = some (s :: ss)
    rw [jsonLoads.eq_def]
    show (match skipWs ('[' :: (dumpsItems (s :: ss) ++ [']'])) with
      | '[' :: rest =>
        match skipWs rest with
        | '"' :: rest2 =>
          match parseStrBody rest2 with
          | some (item, rest3) =>
            match parseArrayRest (rest3.length + 1) rest3 with
            | some (items, rest4) =>
              if (skipWs rest4).isEmpty then some ((⟨item⟩ : String) :: items) else none
            | none => none
          | none => none
        | ']' :: rest2 => if (skipWs rest2).isEmpty then some [] else none
        | _ => none
      | _ => none) = some (s :: ss)
    rw [hshape]
    rw [skipWs_cons_of _ (by decide)]
    show (match skipWs ('"' :: (escList s.data ++ '"' :: (sepItems ss ++ [']']))) with
      | '"' :: rest2 =>
        match parseStrBody rest2 with
        | some (item, rest3) =>
          match parseArrayRest (rest3.length + 1) rest3 with
          | some (items, rest4) =>
            if (skipWs rest4).isEmpty then some ((⟨item⟩ : String) :: items) else none
          | none => none
        | none => none
      | ']' :: rest2 => if (skipWs rest2).isEmpty then some [] else none
      | _ => none) = some (s :: ss)
    rw [skipWs_cons_of _ (by decide)]
    show (match parseStrBody (escList s.data ++ '"' :: (sepItems ss ++ [']'])) with
      | some (item, rest3) =>
        match parseArrayRest (rest3.length + 1) rest3 with
        | some (items, rest4) =>
          if (skipWs rest4).isEmpty then some ((⟨item⟩ : String) :: items) else none
        | none => none
      | none => none) = some (s :: ss)
    rw [parseStrBody_escList]
    show (match parseArrayRest ((sepItems ss ++ [']']).length + 1) (sepItems ss ++ [']']) with
      | some (items, rest4) =>
        if (skipWs rest4).isEmpty then some ((⟨s.data⟩ : String) :: items) else none
      | none => none) = some (s :: ss)
    rw [harr]
    rfl

/-! ## The flat-store update characterised -/

theorem jsonDumps_ne_empty (l : List String) : jsonDumps l ≠ "" := by
  intro h
  have hd : (jsonDumps l).data = [] := by rw [h]
  simp only [jsonDumps] at hd
  cases hd

theorem decodeTags_dumps (l : List String) :
    decodeTags (some (jsonDumps l)) = some l := by
  simp only [decodeTags]
  rw [if_neg (jsonDumps_ne_empty l)]
  exact jsonLoads_jsonDumps l

/-- A well-formed tags column always decodes, to a duplicate-free
list. -/
theorem decodeTags_of_wf {r : PhotoRow} (h : TagsWF r) :
    ∃ l : List String, l.Nodup ∧ decodeTags r.tags = some l := by
  rcases h with h | ⟨l, hnd, hl⟩
  · exact ⟨[], List.nodup_nil, by rw [h]; rfl⟩
  · exact ⟨l, hnd, by rw [hl]; exact decodeTags_dumps l⟩

/-- With unique ids, `find?` on an id returns the member row carrying
it. -/
theorem find_id_nodup (rows : List PhotoRow)
    (hnd : (rows.map (·.id)).Nodup) (r : PhotoRow) (hr : r ∈ rows)
    (pid : Nat) (hid : r.id = pid) :
    rows.find? (fun x => x.id == pid) = some r := by
  induction rows with
  | nil => cases hr
  | cons a rest ih =>
    simp only [List.map_cons, List.nodup_cons] at hnd
    by_cases ha : a.id = pid
    · have hstep : List.find? (fun x => x.id == pid) (a :: rest) = some a :=
        List.find?_cons_of_pos rest (by simp [ha])
      rw [hstep]
      rcases List.mem_cons.mp hr with rfl | hr2
      · rfl
      · exact absurd (List.mem_map.mpr ⟨r, hr2, by rw [hid, ha]⟩) hnd.1
    · have hstep : List.find? (fun x => x.id == pid) (a :: rest) =
          List.find? (fun x => x.id == pid) rest :=
        List.find?_cons_of_neg rest (by simp [ha])
      rw [hstep]
      rcases List.mem_cons.mp hr with rfl | hr2
      · exact absurd hid ha
      · exact ih hnd.2 hr2

/-- The successful branch of `db_update_photo_tags`, in closed form. -/
theorem db_update_found (db : FlatDB) (pid : Nat)
    (adds rems : Option (List String))
    (hnd : (db.rows.map (·.id)).Nodup)
    (r : PhotoRow) (hr : r ∈ db.rows) (hid : r.id = pid)
    (cur : List String) (hdec : decodeTags r.tags = some cur) :
    db_update_photo_tags db pid adds rems =
      some (true, ⟨db.rows.map fun x =>
        if x.id == pid then
          { x with tags := some (jsonDumps (pyNewTags cur adds rems)) }
        else x⟩) := by
  rw [db_update_photo_tags.eq_def, find_id_nodup db.rows hnd r hr pid hid]
  show (match decodeTags r.tags with
    | none => none
    | some cur =>
      some (true, (⟨db.rows.map fun x =>
        if x.id == pid then
          { x with tags := some (jsonDumps (pyNewTags cur adds rems)) }
        else x⟩ : FlatDB))) =
    some (true, (⟨db.rows.map fun x =>
      if x.id == pid then
        { x with tags := some (jsonDumps (pyNewTags cur adds rems)) }
      else x⟩ : FlatDB))
  rw [hdec]

theorem pyNewTags_nodup (cur : List String) (adds rems : Option (List String)) :
    (pyNewTags cur adds rems).Nodup := by
  have h1 : cur.dedup.Nodup := cur.nodup_dedup
  have hu : ∀ l : List String,
      (cur.dedup ++ l.dedup.filter fun x => !(cur.dedup.contains x)).Nodup := by
    intro l
    refine List.Nodup.append h1 (l.nodup_dedup.filter _) ?_
    intro a ha hb
    have hb2 := List.of_mem_filter hb
    simp only [Bool.not_eq_true', List.contains, List.elem_eq_mem, decide_eq_false_iff_not] at hb2
    exact hb2 ha
  unfold pyNewTags
  cases adds with
  | none =>
    cases rems with
    | none => exact h1
    | some l =>
      by_cases hl : l = []
      · simp only [hl, if_true]
        exact h1
      · simp only [hl, if_false]
        exact h1.filter _
  | some la =>
    by_cases hla : la = []
    · simp only [hla, if_true]
      cases rems with
      | none => exact h1
      | some l =>
        by_cases hl : l = []
        · simp only [hl, if_true]
          exact h1
        · simp only [hl, if_false]
          exact h1.filter _
    · simp only [hla, if_false]
      cases rems with
      | none => exact hu la
      | some l =>
        by_cases hl : l = []
        · simp only [hl, if_true]
          exact hu la
        · simp only [hl, if_false]
          exact (hu la).filter _

/-- Membership in the updated tag list: added after removal is applied
to the union. -/
theorem pyNewTags_mem (cur : List String) (adds rems : Option (List String))
    (x : String) :
    x ∈ pyNewTags cur adds rems ↔
      (x ∈ cur ∨ x ∈ adds.getD []) ∧ x ∉ rems.getD [] := by
  have hu : ∀ l : List String,
      x ∈ cur.dedup ++ l.dedup.filter (fun y => !(cur.dedup.contains y)) ↔
        x ∈ cur ∨ x ∈ l := by
    intro l
    simp only [List.mem_append, List.mem_filter, List.mem_dedup,
      Bool.not_eq_true', List.contains, List.elem_eq_mem, decide_eq_false_iff_not]
    constructor
    · rintro (h | ⟨h, _⟩)
      · exact Or.inl h
      · exact Or.inr h
    · rintro (h | h)
      · exact Or.inl h
      · by_cases hc : x ∈ cur
        · exact Or.inl hc
        · exact Or.inr ⟨h, by simpa using hc⟩
  unfold pyNewTags
  cases adds with
  | none =>
    cases rems with
    | none => simp
    | some l =>
      by_cases hl : l = []
      · subst hl; simp
      · simp only [hl, if_false, List.mem_filter, List.mem_dedup,
          Bool.not_eq_true', List.contains, List.elem_eq_mem, decide_eq_false_iff_not,
          Option.getD_some, Option.getD_none]
        simp
  | some la =>
    by_cases hla : la = []
    · subst hla
      cases rems with
      | none => simp
      | some l =>
        by_cases hl : l = []
        · subst hl; simp
        · simp only [hl, if_true, if_false, List.mem_filter, List.mem_dedup,
            Bool.not_eq_true', List.contains, List.elem_eq_mem, decide_eq_false_iff_not]
          simp
    · simp only [hla, if_false]
      cases rems with
      | none =>
        simp only [Option.getD_some, Option.getD_none, List.not_mem_nil,
          not_false_iff, and_true]
        exact hu la
      | some l =>
        by_cases hl : l = []
        · subst hl
          simp only [if_true, Option.getD_some, List.not_mem_nil,
            not_false_iff, and_true]
          exact hu la
        · simp only [hl, if_false, Option.getD_some]
          rw [List.mem_filter, hu la]
          simp [List.contains, List.elem_eq_mem]

/-- The set computed by the update is `(current ∪ add) \ remove`. -/
theorem pyNewTags_toFinset (cur : List String) (adds rems : Option (List String)) :
    (pyNewTags cur adds rems).toFinset =
      (cur.toFinset ∪ (adds.getD []).toFinset) \ (rems.getD []).toFinset := by
  ext x
  simp only [List.mem_toFinset, Finset.mem_sdiff, Finset.mem_union,
    pyNewTags_mem]

/-! ## `LIKE` matching characterised

`likeMatch` with a wildcard-free core between two `%` is exactly
case-insensitive (ASCII-folded) substring containment; against a dumped
JSON array of plain strings, the `%"t"%` tag pattern is exactly folded
membership of `t` among the entries. -/

theorem toNat_ofNat_small {n : Nat} (h : n < 55296) : (Char.ofNat n).toNat = n := by
  have hv : n.isValidChar := Or.inl h
  rw [Char.ofNat, dif_pos hv]
  rfl

theorem asciiLower_ne {c d : Char} (hne : c ≠ d)
    (hd : d.toNat < 97 ∨ 122 < d.toNat) : asciiLower c ≠ d := by
  unfold asciiLower
  split
  · rename_i hcase
    intro heq
    have h2 := congrArg Char.toNat heq
    rw [toNat_ofNat_small (by omega)] at h2
    omega
  · exact hne

theorem mem_tails (s : List Char) : ∀ x, x ∈ tails s ↔ x <:+ s := by
  induction s with
  | nil => intro x; simp [tails]
  | cons c r ih => intro x; simp [tails, ih, List.suffix_cons_iff]

theorem likeMatch_nil (s : List Char) : likeMatch [] s = s.isEmpty := by
  simp [likeMatch]

theorem likeMatch_pct (ps s : List Char) :
    likeMatch ('%' :: ps) s = (tails s).any fun s2 => likeMatch ps s2 := by
  simp [likeMatch]

theorem likeMatch_other {c : Char} (hc1 : c ≠ '%') (hc2 : c ≠ '_') (ps s : List Char) :
    likeMatch (c :: ps) s = match s with
      | [] => false
      | d :: s2 => (asciiLower c == asciiLower d) && likeMatch ps s2 := by
  rw [likeMatch.eq_def]
  simp only [if_neg hc1, if_neg hc2]

theorem likeMatch_nowild (p : List Char) (hp : ∀ c ∈ p, c ≠ '%' ∧ c ≠ '_') :
    ∀ s, likeMatch p s = true ↔ s.map asciiLower = p.map asciiLower := by
  induction p with
  | nil =>
    intro s
    rw [likeMatch_nil]
    cases s <;> simp
  | cons c ps ih =>
    intro s
    have hc := hp c (List.mem_cons_self c ps)
    have hps : ∀ d ∈ ps, d ≠ '%' ∧ d ≠ '_' := fun d hd => hp d (List.mem_cons_of_mem c hd)
    rw [likeMatch_other hc.1 hc.2]
    cases s with
    | nil => simp
    | cons d s2 =>
      simp only [List.map_cons, List.cons.injEq, Bool.and_eq_true, beq_iff_eq, ih hps s2]
      constructor
      · rintro ⟨h1, h2⟩; exact ⟨h1.symm, h2⟩
      · rintro ⟨h1, h2⟩; exact ⟨h1.symm, h2⟩

theorem likeMatch_mid_pct (mid : List Char) (hmid : ∀ c ∈ mid, c ≠ '%' ∧ c ≠ '_') :
    ∀ t, likeMatch (mid ++ ['%']) t = true ↔
      ∃ t1 t2 : List Char, t = t1 ++ t2 ∧ t1.map asciiLower = mid.map asciiLower := by
  induction mid with
  | nil =>
    intro t
    simp only [List.nil_append, List.map_nil]
    rw [likeMatch_pct]
    constructor
    · intro _
      exact ⟨[], t, rfl, rfl⟩
    · intro _
      rw [List.any_eq_true]
      refine ⟨[], (mem_tails t []).mpr List.nil_suffix, ?_⟩
      rw [likeMatch_nil]
      rfl
  | cons c mid' ih =>
    intro t
    have hc := hmid c (List.mem_cons_self c mid')
    have hmid' : ∀ d ∈ mid', d ≠ '%' ∧ d ≠ '_' :=
      fun d hd => hmid d (List.mem_cons_of_mem c hd)
    rw [List.cons_append, likeMatch_other hc.1 hc.2]
    cases t with
    | nil =>
      simp only [List.map_cons]
      constructor
      · intro h; exact absurd h (by simp)
      · rintro ⟨t1, t2, heq, hm⟩
        cases t1 with
        | nil => simp at hm
        | cons e t1' => simp at heq
    | cons d t2 =>
      rw [Bool.and_eq_true, beq_iff_eq, ih hmid' t2]
      constructor
      · rintro ⟨h1, t1, t2', rfl, hm⟩
        exact ⟨d :: t1, t2', rfl, by simp [hm, h1.symm]⟩
      · rintro ⟨t1, t2', heq, hm⟩
        cases t1 with
        | nil => simp at hm
        | cons e t1' =>
          rw [List.cons_append] at heq
          injection heq with he ht
          subst he
          simp only [List.map_cons, List.cons.injEq] at hm
          exact ⟨hm.1.symm, t1', t2', ht, hm.2⟩

theorem likeMatch_infix (mid : List Char) (hmid : ∀ c ∈ mid, c ≠ '%' ∧ c ≠ '_')
    (s : List Char) :
    likeMatch ('%' :: (mid ++ ['%'])) s = true ↔
      (mid.map asciiLower) <:+: (s.map asciiLower) := by
  rw [likeMatch_pct, List.any_eq_true]
  constructor
  · rintro ⟨t, ht, hlm⟩
    rw [mem_tails] at ht
    rw [likeMatch_mid_pct mid hmid t] at hlm
    obtain ⟨t1, t2, rfl, hm⟩ := hlm
    obtain ⟨pre, rfl⟩ := ht
    exact ⟨pre.map asciiLower, t2.map asciiLower, by simp [hm]⟩
  · rintro ⟨a, b, hab⟩
    refine ⟨s.drop a.length, (mem_tails s _).mpr (List.drop_suffix _ _), ?_⟩
    rw [likeMatch_mid_pct mid hmid]
    refine ⟨(s.drop a.length).take mid.length, (s.drop a.length).drop mid.length,
      (List.take_append_drop _ _).symm, ?_⟩
    rw [List.map_take, List.map_drop, ← hab, List.append_assoc, List.drop_left]
    rw [show mid.length = (mid.map asciiLower).length from (List.length_map _ _).symm]
    exact List.take_left _ _

theorem quote_infix_step (y l : List Char) (a : Char) (ha : a ≠ '"') :
    (('"' :: y) <:+: (a :: l)) ↔ (('"' :: y) <:+: l) := by
  rw [List.infix_cons_iff]
  constructor
  · rintro (hp | hi)
    · rw [List.cons_prefix_cons] at hp
      exact absurd hp.1.symm ha
    · exact hi
  · exact Or.inr

theorem quote_infix_skip (y pre l : List Char) (hpre : '"' ∉ pre) :
    (('"' :: y) <:+: (pre ++ l)) ↔ (('"' :: y) <:+: l) := by
  induction pre with
  | nil => exact Iff.rfl
  | cons p pre' ih =>
    have hp : p ≠ '"' := by
      intro h
      rw [h] at hpre
      exact hpre (List.mem_cons_self _ _)
    have hpre' : '"' ∉ pre' := fun h => hpre (List.mem_cons_of_mem _ h)
    rw [List.cons_append, quote_infix_step _ _ p hp, ih hpre']

theorem pref_entry (R : List Char) (e : List Char) : ∀ t : List Char, '"' ∉ t → '"' ∉ e →
    (((t ++ ['"']) <+: (e ++ '"' :: R)) ↔ t = e) := by
  induction e with
  | nil =>
    intro t ht _
    cases t with
    | nil => simp [List.cons_prefix_cons]
    | cons c t' =>
      have hc : c ≠ '"' := by
        intro h
        rw [h] at ht
        exact ht (List.mem_cons_self _ _)
      simp [List.cons_prefix_cons, hc]
  | cons d e' ih =>
    intro t ht he
    have hd : d ≠ '"' := by
      intro h
      rw [h] at he
      exact he (List.mem_cons_self _ _)
    cases t with
    | nil =>
      simp only [List.nil_append, List.cons_append, List.cons_prefix_cons]
      constructor
      · rintro ⟨h1, _⟩; exact absurd h1.symm hd
      · intro h; exact absurd h (by simp)
    | cons c t' =>
      have ht' : '"' ∉ t' := fun h => ht (List.mem_cons_of_mem _ h)
      have he' : '"' ∉ e' := fun h => he (List.mem_cons_of_mem _ h)
      simp only [List.cons_append, List.cons_prefix_cons]
      rw [ih t' ht' he']
      constructor
      · rintro ⟨h1, h2⟩; rw [h1, h2]
      · intro h
        injection h with h1 h2
        exact ⟨h1, h2⟩

theorem no_comma_pref (l : List Char) (t : List Char) (hc : ',' ∉ t) :
    ¬((t ++ ['"']) <+: (',' :: l)) := by
  intro hp
  cases t with
  | nil =>
    rw [List.nil_append, List.cons_prefix_cons] at hp
    exact absurd hp.1 (by decide)
  | cons c t' =>
    rw [List.cons_append, List.cons_prefix_cons] at hp
    apply hc
    rw [hp.1]
    exact List.mem_cons_self _ _

theorem quoted_entries (t : List Char) (ht : '"' ∉ t) (hc : ',' ∉ t) :
    ∀ es : List (List Char), (∀ e ∈ es, '"' ∉ e) →
      ((('"' :: (t ++ ['"'])) <:+: (chunksBody es ++ [']'])) ↔ t ∈ es) := by
  intro es
  induction es with
  | nil =>
    intro _
    simp only [chunksBody, List.nil_append]
    constructor
    · intro h
      exact absurd (h.mem (List.mem_cons_self _ _)) (by decide)
    · intro h
      exact absurd h (List.not_mem_nil t)
  | cons e rest ih =>
    intro hq
    have hqe : '"' ∉ e := hq e (List.mem_cons_self _ _)
    have hqr : ∀ x ∈ rest, '"' ∉ x := fun x hx => hq x (List.mem_cons_of_mem _ hx)
    have hsh : chunksBody (e :: rest) ++ [']'] =
        '"' :: (e ++ '"' ::
          ((rest.map fun e2 => ',' :: ' ' :: quotedChunk e2).flatten ++ [']'])) := by
      simp [chunksBody, quotedChunk, List.append_assoc]
    rw [hsh, List.infix_cons_iff, List.cons_prefix_cons,
      pref_entry _ e t ht hqe, quote_infix_skip _ e _ hqe, List.mem_cons]
    simp only [eq_self_iff_true, true_and]
    cases rest with
    | nil =>
      simp only [List.map_nil, List.flatten_nil, List.nil_append]
      constructor
      · rintro (h | h)
        · exact Or.inl h
        · have hlen : (['"', ']'] : List Char).length ≤ ('"' :: (t ++ ['"'])).length := by
            simp
          have heq := h.eq_of_length_le hlen
          injection heq with _ h2
          cases t with
          | nil => exact absurd h2 (by decide)
          | cons c t' => simp at h2
      · rintro (h | h)
        · exact Or.inl h
        · exact absurd h (List.not_mem_nil t)
    | cons e2 rest' =>
      have hfl : (((e2 :: rest').map fun x => ',' :: ' ' :: quotedChunk x).flatten
            ++ ([']'] : List Char)) =
          ',' :: ' ' :: (chunksBody (e2 :: rest') ++ [']']) := by
        simp [chunksBody, quotedChunk, List.append_assoc]
      rw [hfl, List.infix_cons_iff, List.cons_prefix_cons,
        quote_infix_step _ _ ',' (by decide), quote_infix_step _ _ ' ' (by decide),
        ih hqr]
      simp only [eq_self_iff_true, true_and]
      constructor
      · rintro (h | (h | h))
        · exact Or.inl h
        · exact absurd h (no_comma_pref _ t hc)
        · exact Or.inr h
      · rintro (h | h)
        · exact Or.inl h
        · exact Or.inr (Or.inr h)

theorem escChar_plain {c : Char} (h1 : 32 ≤ c.toNat) (h2 : c.toNat ≤ 126)
    (h3 : c ≠ '"') (h4 : c ≠ '\\') : escChar c = [c] := by
  have n8 : c ≠ Char.ofNat 8 := by
    intro h; rw [h] at h1; exact absurd h1 (by decide)
  have n9 : c ≠ Char.ofNat 9 := by
    intro h; rw [h] at h1; exact absurd h1 (by decide)
  have n10 : c ≠ Char.ofNat 10 := by
    intro h; rw [h] at h1; exact absurd h1 (by decide)
  have n12 : c ≠ Char.ofNat 12 := by
    intro h; rw [h] at h1; exact absurd h1 (by decide)
  have n13 : c ≠ Char.ofNat 13 := by
    intro h; rw [h] at h1; exact absurd h1 (by decide)
  rw [escChar, if_neg h3, if_neg h4, if_neg n8, if_neg n9, if_neg n10,
    if_neg n12, if_neg n13, if_pos ⟨h1, h2⟩]

theorem escList_plain {u : List Char} (h : ∀ c ∈ u, PlainChar c) : escList u = u := by
  induction u with
  | nil => rfl
  | cons c cs ih =>
    have hp := h c (List.mem_cons_self _ _)
    rw [escList, escChar_plain hp.1 hp.2.1 hp.2.2.1 hp.2.2.2.1,
      ih fun d hd => h d (List.mem_cons_of_mem _ hd)]
    rfl

theorem asciiLower_quote : asciiLower '"' = '"' := by decide

theorem asciiLower_comma : asciiLower ',' = ',' := by decide

theorem asciiLower_space : asciiLower ' ' = ' ' := by decide

theorem asciiLower_lbracket : asciiLower '[' = '[' := by decide

theorem asciiLower_rbracket : asciiLower ']' = ']' := by decide

theorem fold_quoted (u : String) (h : ∀ c ∈ u.data, PlainChar c) :
    (quoted u).map asciiLower = quotedChunk (u.data.map asciiLower) := by
  rw [quoted, escList_plain h, quotedChunk]
  simp only [List.map_cons, List.map_append, List.map_nil, asciiLower_quote]

theorem fold_sepItems (l : List String) (h : ∀ u ∈ l, ∀ c ∈ u.data, PlainChar c) :
    (sepItems l).map asciiLower =
      ((l.map fun u => u.data.map asciiLower).map fun e2 =>
        ',' :: ' ' :: quotedChunk e2).flatten := by
  induction l with
  | nil => rfl
  | cons u rest ih =>
    rw [sepItems]
    simp only [List.map_cons, List.flatten_cons, List.map_append]
    rw [fold_quoted u (h u (List.mem_cons_self _ _)),
      ih fun x hx => h x (List.mem_cons_of_mem _ hx),
      asciiLower_comma, asciiLower_space]
    simp only [List.cons_append]

theorem fold_dumpsItems (l : List String) (h : ∀ u ∈ l, ∀ c ∈ u.data, PlainChar c) :
    (dumpsItems l).map asciiLower =
      chunksBody (l.map fun u => u.data.map asciiLower) := by
  cases l with
  | nil => rfl
  | cons u rest =>
    rw [dumpsItems]
    simp only [List.map_cons, chunksBody, List.map_append]
    rw [fold_quoted u (h u (List.mem_cons_self _ _)),
      fold_sepItems rest fun x hx => h x (List.mem_cons_of_mem _ hx)]

theorem fold_dumps (l : List String) (h : ∀ u ∈ l, ∀ c ∈ u.data, PlainChar c) :
    (jsonDumps l).data.map asciiLower =
      '[' :: (chunksBody (l.map fun u => u.data.map asciiLower) ++ [']']) := by
  show (('[' :: (dumpsItems l ++ [']'])).map asciiLower) = _
  simp only [List.map_cons, List.map_append, List.map_nil,
    asciiLower_lbracket, asciiLower_rbracket]
  rw [fold_dumpsItems l h]

theorem tagLikePat_shape (t : String) :
    tagLikePat t = '%' :: (('"' :: (t.data ++ ['"'])) ++ ['%']) := by
  simp [tagLikePat, List.append_assoc]

theorem tagLike_dumps (t : String) (htp : ∀ c ∈ t.data, PlainChar c)
    (htc : ',' ∉ t.data) (l : List String)
    (hl : ∀ u ∈ l, ∀ c ∈ u.data, PlainChar c) :
    likeMatch (tagLikePat t) (jsonDumps l).data = true ↔
      ∃ u ∈ l, u.data.map asciiLower = t.data.map asciiLower := by
  have hmid : ∀ c ∈ ('"' :: (t.data ++ ['"'])), c ≠ '%' ∧ c ≠ '_' := by
    intro c hcm
    rcases List.mem_cons.mp hcm with rfl | hcm2
    · exact ⟨by decide, by decide⟩
    · rcases List.mem_append.mp hcm2 with hcm3 | hcm4
      · exact ⟨(htp c hcm3).2.2.2.2.1, (htp c hcm3).2.2.2.2.2⟩
      · rcases List.mem_singleton.mp hcm4 with rfl
        exact ⟨by decide, by decide⟩
  rw [tagLikePat_shape, likeMatch_infix _ hmid, fold_dumps l hl]
  have hmfold : (('"' :: (t.data ++ ['"'])).map asciiLower) =
      '"' :: ((t.data.map asciiLower) ++ ['"']) := by
    simp only [List.map_cons, List.map_append, List.map_nil, asciiLower_quote]
  rw [hmfold]
  have hTq : '"' ∉ t.data.map asciiLower := by
    intro hx
    obtain ⟨c, hcm, hce⟩ := List.mem_map.mp hx
    exact asciiLower_ne (htp c hcm).2.2.1 (Or.inl (by decide)) hce
  have hTc : ',' ∉ t.data.map asciiLower := by
    intro hx
    obtain ⟨c, hcm, hce⟩ := List.mem_map.mp hx
    have hcn : c ≠ ',' := fun h => htc (h ▸ hcm)
    exact asciiLower_ne hcn (Or.inl (by decide)) hce
  have hes : ∀ e ∈ l.map (fun u => u.data.map asciiLower), '"' ∉ e := by
    intro e hem hx
    obtain ⟨u, hum, hue⟩ := List.mem_map.mp hem
    rw [← hue] at hx
    obtain ⟨c, hcm, hce⟩ := List.mem_map.mp hx
    exact asciiLower_ne (hl u hum c hcm).2.2.1 (Or.inl (by decide)) hce
  rw [show ('[' :: (chunksBody (l.map fun u => u.data.map asciiLower) ++ [']'])) =
      (['['] ++ (chunksBody (l.map fun u => u.data.map asciiLower) ++ [']'])) from rfl,
    quote_infix_skip _ ['['] _ (by decide),
    quoted_entries _ hTq hTc _ hes, List.mem_map]

/-! ## Listing and the tag filters characterised -/

/-- When every row's tags column decodes, the response loop succeeds and
returns the decoded rows one for one (same ids, same order). -/
theorem decodePhotos_ids (rows : List PhotoRow)
    (h : ∀ r ∈ rows, ∃ tl, decodeTags r.tags = some tl) :
    ∃ ps, decodePhotos rows = some ps ∧
      ps.map (fun p => p.id) = rows.map (fun r => r.id) := by
  induction rows with
  | nil => exact ⟨[], rfl, rfl⟩
  | cons r rest ih =>
    obtain ⟨tl, htl⟩ := h r (List.mem_cons_self _ _)
    obtain ⟨ps, hps, hids⟩ := ih fun x hx => h x (List.mem_cons_of_mem _ hx)
    refine ⟨⟨r.id, r.path, r.filename, r.date_taken, r.location,
      r.camera_model, tl⟩ :: ps, ?_, ?_⟩
    · rw [decodePhotos, rowToPhoto, htl]
      simp [hps]
    · simp [hids]

/-- The join-table filter of `get_images_by_tags`, characterised: under
unique ids and names and a duplicate-free non-empty request, an image is
returned exactly when every requested name labels it through some
association row (`AND` semantics, case-sensitive equality on names). -/
theorem get_images_by_tags_mem (db : NormDB) (names : List String) (i : ImageRow)
    (hwf : NormWF db) (hnd : names.Nodup) (hne : names ≠ []) :
    i ∈ get_images_by_tags db names ↔
      i ∈ db.images ∧
        ∀ n ∈ names, ∃ t ∈ db.tags, t.name = n ∧ (i.id, t.id) ∈ db.image_tags := by
  rw [get_images_by_tags, if_neg hne, List.mem_filter]
  refine and_congr_right fun _ => ?_
  rw [beq_iff_eq]
  have hMsub : List.Sublist (db.tags.filter fun t =>
      names.contains t.name && db.image_tags.contains (i.id, t.id)) db.tags :=
    List.filter_sublist _
  have hMid : ((db.tags.filter fun t =>
      names.contains t.name && db.image_tags.contains (i.id, t.id)).map (·.id)).Nodup :=
    List.Nodup.sublist (hMsub.map _) hwf.2.1
  have hM : matchingTagIds db names i = (db.tags.filter fun t =>
      names.contains t.name && db.image_tags.contains (i.id, t.id)).map (·.id) := by
    rw [matchingTagIds, List.dedup_eq_self.mpr hMid]
  rw [hM, List.length_map]
  have hnamend : ((db.tags.filter fun t =>
      names.contains t.name && db.image_tags.contains (i.id, t.id)).map (·.name)).Nodup :=
    List.Nodup.sublist (hMsub.map _) hwf.2.2
  have hsubF : ((db.tags.filter fun t =>
      names.contains t.name && db.image_tags.contains (i.id, t.id)).map
        (·.name)).toFinset ⊆ names.toFinset := by
    intro x hx
    rw [List.mem_toFinset] at hx
    rw [List.mem_toFinset]
    obtain ⟨t, htM, hte⟩ := List.mem_map.mp hx
    have hb := (List.mem_filter.mp htM).2
    rw [Bool.and_eq_true] at hb
    rw [← hte]
    have hcont := hb.1
    simpa [List.contains, List.elem_eq_mem] using hcont
  have hcard1 : ((db.tags.filter fun t =>
      names.contains t.name && db.image_tags.contains (i.id, t.id)).map
        (·.name)).toFinset.card =
      (db.tags.filter fun t =>
        names.contains t.name && db.image_tags.contains (i.id, t.id)).length := by
    rw [List.toFinset_card_of_nodup hnamend, List.length_map]
  have hcard2 : names.toFinset.card = names.length :=
    List.toFinset_card_of_nodup hnd
  constructor
  · intro hlen n hn
    have heqF : ((db.tags.filter fun t =>
        names.contains t.name && db.image_tags.contains (i.id, t.id)).map
          (·.name)).toFinset = names.toFinset := by
      apply Finset.eq_of_subset_of_card_le hsubF
      rw [hcard1, hcard2, hlen]
    have hnF : n ∈ ((db.tags.filter fun t =>
        names.contains t.name && db.image_tags.contains (i.id, t.id)).map
          (·.name)).toFinset := by
      rw [heqF, List.mem_toFinset]
      exact hn
    rw [List.mem_toFinset] at hnF
    obtain ⟨t, htM, hte⟩ := List.mem_map.mp hnF
    have hf := List.mem_filter.mp htM
    have hb := hf.2
    rw [Bool.and_eq_true] at hb
    refine ⟨t, hf.1, hte, ?_⟩
    have hass := hb.2
    simpa [List.contains, List.elem_eq_mem] using hass
  · intro hcov
    have hsubR : names.toFinset ⊆ ((db.tags.filter fun t =>
        names.contains t.name && db.image_tags.contains (i.id, t.id)).map
          (·.name)).toFinset := by
      intro n hn
      rw [List.mem_toFinset] at hn
      rw [List.mem_toFinset]
      obtain ⟨t, htT, hte, hassoc⟩ := hcov n hn
      refine List.mem_map.mpr ⟨t, ?_, hte⟩
      refine List.mem_filter.mpr ⟨htT, ?_⟩
      rw [Bool.and_eq_true]
      constructor
      · simp [List.contains, List.elem_eq_mem, hte, hn]
      · simp [List.contains, List.elem_eq_mem, hassoc]
    have hcc : ((db.tags.filter fun t =>
        names.contains t.name && db.image_tags.contains (i.id, t.id)).map
          (·.name)).toFinset.card = names.toFinset.card :=
      Nat.le_antisymm (Finset.card_le_card hsubF) (Finset.card_le_card hsubR)
    rw [hcard1, hcard2] at hcc
    exact hcc

/-! ## Claim C5 — tag update computes (old ∪ add) \ remove -/

/-- C5: on a well-formed store, updating an existing photo's tags
succeeds and stores the JSON encoding of a list whose underlying set is
`(old ∪ add) \ remove` — removal applied after addition. -/
theorem c5_tag_update_add_then_remove (db : FlatDB) (pid : Nat)
    (adds rems : Option (List String)) (hwf : FlatWF db)
    (r : PhotoRow) (hr : r ∈ db.rows) (hid : r.id = pid) :
    ∃ (cur newList : List String) (db2 : FlatDB),
      decodeTags r.tags = some cur ∧
      db_update_photo_tags db pid adds rems = some (true, db2) ∧
      db2.rows = db.rows.map (fun x =>
        if x.id == pid then { x with tags := some (jsonDumps newList) } else x) ∧
      newList.toFinset =
        (cur.toFinset ∪ (adds.getD []).toFinset) \ (rems.getD []).toFinset := by
  obtain ⟨cur, hnd, hdec⟩ := decodeTags_of_wf (hwf.2 r hr)
  exact ⟨cur, pyNewTags cur adds rems, _,
    hdec, db_update_found db pid adds rems hwf.1 r hr hid cur hdec, rfl,
    pyNewTags_toFinset cur adds rems⟩

/-- Witness for C5 at the spec's own example: no prior tags,
`add = {"x"}`, `remove = {"x"}` ends with the empty tag set. -/
theorem c5_tag_update_add_then_remove_witness :
    FlatWF ⟨[⟨1, "p", "p", none, none, none, none⟩]⟩ ∧
    ∃ (cur newList : List String) (db2 : FlatDB),
      decodeTags (⟨1, "p", "p", none, none, none, none⟩ : PhotoRow).tags = some cur ∧
      db_update_photo_tags ⟨[⟨1, "p", "p", none, none, none, none⟩]⟩ 1
        (some ["x"]) (some ["x"]) = some (true, db2) ∧
      db2.rows = [⟨1, "p", "p", none, none, none, none⟩].map (fun x =>
        if x.id == 1 then { x with tags := some (jsonDumps newList) } else x) ∧
      newList.toFinset =
        (cur.toFinset ∪ (["x"] : List String).toFinset) \
          (["x"] : List String).toFinset := by
  have hwf : FlatWF ⟨[⟨1, "p", "p", none, none, none, none⟩]⟩ := by
    constructor
    · decide
    · intro r hr
      simp only [List.mem_singleton] at hr
      subst hr
      exact Or.inl rfl
  exact ⟨hwf, c5_tag_update_add_then_remove
    ⟨[⟨1, "p", "p", none, none, none, none⟩]⟩ 1 (some ["x"]) (some ["x"]) hwf
    ⟨1, "p", "p", none, none, none, none⟩ (by simp) rfl⟩

/-! ## Claim C10 — the update touches only the targeted record's tags -/

/-- C10: whatever `db_update_photo_tags` returns, the resulting table is
the original with only the tags column of rows carrying the targeted id
replaced; every other field of every row is untouched. -/
theorem c10_update_frame (db : FlatDB) (pid : Nat)
    (adds rems : Option (List String)) (bres : Bool) (db2 : FlatDB)
    (h : db_update_photo_tags db pid adds rems = some (bres, db2)) :
    ∃ t2 : Option String,
      db2.rows = db.rows.map fun r =>
        if r.id == pid then { r with tags := t2 } else r := by
  rw [db_update_photo_tags.eq_def] at h
  split at h
  · rename_i hfind
    have hall := List.find?_eq_none.mp hfind
    injection h with h2
    injection h2 with hb hdbe
    subst hdbe
    refine ⟨none, ?_⟩
    have hpt : ∀ r ∈ db.rows,
        (if r.id == pid then { r with tags := none } else r) = r := by
      intro r hr
      rw [if_neg (by simpa using hall r hr)]
    rw [List.map_congr_left hpt, List.map_id']
  · rename_i row hfind
    split at h
    · exact absurd h (by simp)
    · rename_i cur hdec
      injection h with h2
      injection h2 with hb hdbe
      subst hdbe
      exact ⟨some (jsonDumps (pyNewTags cur adds rems)), rfl⟩

/-- Witness for C10 at a two-row store: the untargeted row survives
unchanged and the targeted row keeps every column but tags. -/
theorem c10_update_frame_witness :
    db_update_photo_tags
        ⟨[⟨1, "p", "p", none, none, none, none⟩,
          ⟨2, "q", "q", some "2023-01-01", some "Kyiv", some "Canon", none⟩]⟩ 1
        (some ["x"]) none =
      some (true, ⟨[⟨1, "p", "p", none, none, none, some (jsonDumps ["x"])⟩,
        ⟨2, "q", "q", some "2023-01-01", some "Kyiv", some "Canon", none⟩]⟩) ∧
    ∃ t2 : Option String,
      ([⟨1, "p", "p", none, none, none, some (jsonDumps ["x"])⟩,
        ⟨2, "q", "q", some "2023-01-01", some "Kyiv", some "Canon", none⟩]
          : List PhotoRow) =
        [⟨1, "p", "p", none, none, none, none⟩,
          ⟨2, "q", "q", some "2023-01-01", some "Kyiv", some "Canon", none⟩].map
          fun r => if r.id == 1 then { r with tags := t2 } else r := by
  refine ⟨by rfl, ?_⟩
  exact c10_update_frame
    ⟨[⟨1, "p", "p", none, none, none, none⟩,
      ⟨2, "q", "q", some "2023-01-01", some "Kyiv", some "Canon", none⟩]⟩ 1
    (some ["x"]) none true
    ⟨[⟨1, "p", "p", none, none, none, some (jsonDumps ["x"])⟩,
      ⟨2, "q", "q", some "2023-01-01", some "Kyiv", some "Canon", none⟩]⟩
    (by rfl)

/-! ## Claim C9 — the tags-column invariant -/

/-- `insertSample` keeps every row's tags column well-formed provided
the inserted tag list has no duplicates. -/
theorem insertSample_wf (db : FlatDB)
    (hdb : ∀ r ∈ db.rows, TagsWF r)
    (e : String × String × String × String × String × List String)
    (he : e.2.2.2.2.2.Nodup) :
    ∀ r ∈ (insertSample db e).rows, TagsWF r := by
  intro r hr
  unfold insertSample at hr
  split at hr
  · exact hdb r hr
  · rcases List.mem_append.mp hr with h | h
    · exact hdb r h
    · simp only [List.mem_singleton] at h
      subst h
      exact Or.inr ⟨e.2.2.2.2.2, he, rfl⟩

/-- C9: the flat store's tags column is `NULL` (read back as the empty
list) or a JSON array that decodes to exactly the duplicate-free list
that was stored: the encoder/decoder round-trip holds for every list,
the sample-data seeding preserves the invariant, and so does every tag
update. -/
theorem c9_tags_column_invariant :
    (∀ l : List String, jsonLoads (jsonDumps l) = some l) ∧
    decodeTags none = some [] ∧
    (∀ db : FlatDB, (∀ r ∈ db.rows, TagsWF r) →
      ∀ r ∈ (db_add_sample_data db).rows, TagsWF r) ∧
    (∀ (db : FlatDB) (pid : Nat) (adds rems : Option (List String))
        (bres : Bool) (db2 : FlatDB),
      db_update_photo_tags db pid adds rems = some (bres, db2) →
      (∀ r ∈ db.rows, TagsWF r) → ∀ r ∈ db2.rows, TagsWF r) := by
  refine ⟨jsonLoads_jsonDumps, rfl, ?_, ?_⟩
  · intro db hdb
    unfold db_add_sample_data samplePhotos
    simp only [List.foldl_cons, List.foldl_nil]
    exact insertSample_wf _
      (insertSample_wf _
        (insertSample_wf _
          (insertSample_wf db hdb _ (by decide)) _ (by decide)) _ (by decide))
      _ (by decide)
  · intro db pid adds rems bres db2 h hdb
    rw [db_update_photo_tags.eq_def] at h
    split at h
    · injection h with h2
      injection h2 with hb hdbe
      subst hdbe
      exact hdb
    · rename_i row hfind
      split at h
      · exact absurd h (by simp)
      · rename_i cur hdec
        injection h with h2
        injection h2 with hb hdbe
        subst hdbe
        intro r hr
        rcases List.mem_map.mp hr with ⟨x, hx, hfx⟩
        by_cases hxid : x.id == pid
        · rw [if_pos hxid] at hfx
          subst hfx
          exact Or.inr ⟨pyNewTags cur adds rems, pyNewTags_nodup cur adds rems, rfl⟩
        · rw [if_neg hxid] at hfx
          subst hfx
          exact hdb x hx

/-- Witness for C9: a concrete round trip, and the invariant at the row
produced by a concrete update carrying a duplicated add list. -/
theorem c9_tags_column_invariant_witness :
    jsonLoads (jsonDumps ["x", "y"]) = some ["x", "y"] ∧
    TagsWF ⟨1, "p", "p", none, none, none, some (jsonDumps ["x"])⟩ := by
  constructor
  · exact c9_tags_column_invariant.1 ["x", "y"]
  · exact c9_tags_column_invariant.2.2.2
      ⟨[⟨1, "p", "p", none, none, none, none⟩]⟩ 1 (some ["x", "x"]) none true
      ⟨[⟨1, "p", "p", none, none, none, some (jsonDumps ["x"])⟩]⟩ (by rfl)
      (by
        intro r hr
        simp only [List.mem_singleton] at hr
        subst hr
        exact Or.inl rfl)
      ⟨1, "p", "p", none, none, none, some (jsonDumps ["x"])⟩ (by simp)

/-! ## Claim C8 — cloud-sync service validation -/

/-- C8: `POST /cloud/sync` with a service other than `google_drive` or
`dropbox` answers 400 and schedules nothing; the two supported names
schedule their task and return an acknowledgement. -/
theorem c8_cloud_sync_dispatch (service : String) :
    (service ≠ "google_drive" ∧ service ≠ "dropbox" →
      initiate_cloud_sync service = ⟨400, []⟩) ∧
    ((service = "google_drive" ∨ service = "dropbox") →
      (initiate_cloud_sync service).status = 200 ∧
        (initiate_cloud_sync service).scheduled ≠ []) := by
  constructor
  · rintro ⟨h1, h2⟩
    simp [initiate_cloud_sync, h1, h2]
  · rintro (rfl | rfl) <;> simp [initiate_cloud_sync]

/-- Witness for C8 at the spec's own example input. -/
theorem c8_cloud_sync_dispatch_witness :
    ("carrier_pigeon" ≠ "google_drive" ∧ "carrier_pigeon" ≠ "dropbox") ∧
      initiate_cloud_sync "carrier_pigeon" = ⟨400, []⟩ :=
  ⟨⟨by decide, by decide⟩,
    (c8_cloud_sync_dispatch "carrier_pigeon").1 ⟨by decide, by decide⟩⟩

/-! ## Claim C6 — duplicate path on create -/

/-- C6: creating an image whose path is already stored changes nothing
and returns the `None` sentinel; a fresh path returns an id and appends
exactly one row. -/
theorem c6_duplicate_path_create (db : NormDB) (fp cd : String)
    (cm : Option String) (la lo : Option Coord) :
    ((∃ r ∈ db.images, r.file_path = fp) →
      add_image db fp cd cm la lo = (none, db)) ∧
    ((¬ ∃ r ∈ db.images, r.file_path = fp) →
      ∃ i, (add_image db fp cd cm la lo).1 = some i ∧
        (add_image db fp cd cm la lo).2.images.length = db.images.length + 1) := by
  constructor
  · rintro ⟨r, hr, hfp⟩
    have h : db.images.any (fun r => r.file_path == fp) = true := by
      simp only [List.any_eq_true, beq_iff_eq]
      exact ⟨r, hr, hfp⟩
    simp [add_image, h]
  · intro h
    have hfalse : db.images.any (fun r => r.file_path == fp) = false := by
      simp only [List.any_eq_false, beq_iff_eq]
      intro r hr hfp
      exact h ⟨r, hr, hfp⟩
    simp [add_image, hfalse]

/-- Witness for C6: inserting a present path returns the sentinel and
leaves the store untouched. -/
theorem c6_duplicate_path_create_witness :
    (∃ r ∈ (⟨[⟨1, "/a.jpg", "2023-01-01", none, none, none⟩], [], []⟩ : NormDB).images,
        r.file_path = "/a.jpg") ∧
      add_image ⟨[⟨1, "/a.jpg", "2023-01-01", none, none, none⟩], [], []⟩
          "/a.jpg" "2023-02-02" none none none =
        (none, ⟨[⟨1, "/a.jpg", "2023-01-01", none, none, none⟩], [], []⟩) :=
  ⟨by decide,
    (c6_duplicate_path_create
        ⟨[⟨1, "/a.jpg", "2023-01-01", none, none, none⟩], [], []⟩
        "/a.jpg" "2023-02-02" none none none).1 (by decide)⟩

/-! ## Claim C7 — unknown identifiers on tag mutation -/

/-- C7: tag mutation on an absent photo id reports `False` and both
endpoints answer 404 with the store unchanged; `delete_tag` on an absent
tag id returns `False` with the store unchanged. -/
theorem c7_unknown_id_not_found (db : FlatDB) (pid : Nat)
    (adds rems : Option (List String)) (tagsToDelete : List String)
    (ndb : NormDB) (tid : Nat)
    (h : ∀ r ∈ db.rows, r.id ≠ pid) (h2 : ∀ t ∈ ndb.tags, t.id ≠ tid) :
    db_update_photo_tags db pid adds rems = some (false, db) ∧
    update_photo_tags_endpoint db pid adds rems = some (404, db) ∧
    delete_photo_tags_endpoint db pid tagsToDelete = some (404, db) ∧
    delete_tag ndb tid = (false, ndb) := by
  have hfind : db.rows.find? (fun r => r.id == pid) = none := by
    rw [List.find?_eq_none]
    intro r hr
    simpa using h r hr
  have hupd : db_update_photo_tags db pid adds rems = some (false, db) := by
    simp [db_update_photo_tags, hfind]
  have hfilter : ndb.tags.filter (fun t => t.id != tid) = ndb.tags := by
    rw [List.filter_eq_self]
    intro t ht
    simpa using h2 t ht
  refine ⟨hupd, ?_, ?_, ?_⟩
  · simp [update_photo_tags_endpoint, hupd]
  · simp [delete_photo_tags_endpoint, update_photo_tags_endpoint,
      db_update_photo_tags, hfind]
  · simp [delete_tag, hfilter]

/-- Witness for C7 at a concrete store holding unrelated rows. -/
theorem c7_unknown_id_not_found_witness :
    ((∀ r ∈ (⟨[⟨1, "p", "p", none, none, none, none⟩]⟩ : FlatDB).rows, r.id ≠ 2) ∧
      (∀ t ∈ (⟨[], [⟨1, "A"⟩], []⟩ : NormDB).tags, t.id ≠ 5)) ∧
    db_update_photo_tags ⟨[⟨1, "p", "p", none, none, none, none⟩]⟩ 2
        (some ["x"]) none =
      some (false, ⟨[⟨1, "p", "p", none, none, none, none⟩]⟩) ∧
    update_photo_tags_endpoint ⟨[⟨1, "p", "p", none, none, none, none⟩]⟩ 2
        (some ["x"]) none =
      some (404, ⟨[⟨1, "p", "p", none, none, none, none⟩]⟩) ∧
    delete_photo_tags_endpoint ⟨[⟨1, "p", "p", none, none, none, none⟩]⟩ 2 ["x"] =
      some (404, ⟨[⟨1, "p", "p", none, none, none, none⟩]⟩) ∧
    delete_tag ⟨[], [⟨1, "A"⟩], []⟩ 5 = (false, ⟨[], [⟨1, "A"⟩], []⟩) :=
  ⟨⟨by decide, by decide⟩,
    c7_unknown_id_not_found ⟨[⟨1, "p", "p", none, none, none, none⟩]⟩ 2
      (some ["x"]) none ["x"] ⟨[], [⟨1, "A"⟩], []⟩ 5 (by decide) (by decide)⟩

/-! ## Claim C4 — deleting a tag (cascade never runs) -/

/-- C4: on a store where image 1 is linked to tag 1 (named `A`),
`delete_tag 1` reports success and removes the `tags` row, but the
`image_tags` association row survives — the declared `ON DELETE CASCADE`
never runs because the connection never enables `PRAGMA foreign_keys`.
Tag-filtered listings for `A` do return no matches, because the join no
longer finds a `tags` row. -/
theorem c4_delete_tag_leaves_association :
    (delete_tag ⟨[⟨1, "/a.jpg", "2023-01-01", none, none, none⟩],
        [⟨1, "A"⟩], [(1, 1)]⟩ 1).1 = true ∧
    (delete_tag ⟨[⟨1, "/a.jpg", "2023-01-01", none, none, none⟩],
        [⟨1, "A"⟩], [(1, 1)]⟩ 1).2.tags = [] ∧
    (delete_tag ⟨[⟨1, "/a.jpg", "2023-01-01", none, none, none⟩],
        [⟨1, "A"⟩], [(1, 1)]⟩ 1).2.image_tags = [(1, 1)] ∧
    get_images_by_tags
      (delete_tag ⟨[⟨1, "/a.jpg", "2023-01-01", none, none, none⟩],
        [⟨1, "A"⟩], [(1, 1)]⟩ 1).2 ["A"] = [] := by
  decide

/-! ## Claim C2 — the search placeholder -/

/-- C2 counterexample: with query `"cat dog"` and a record tagged only
`cat` (empty OCR text), the code returns the record although the token
`dog` appears in no tag — the claim's "every token" reading would
exclude it.  The `lower`/`split` parameters are instantiated at their
ASCII realizations, which coincide with Python's `str.lower()` and
`str.split()` on these all-ASCII inputs (`"cat dog"` is lowercase
printable ASCII with a single plain space; `"cat"` likewise). -/
theorem c2_counterexample :
    semantic_search_placeholder pyLowerAscii pySplitAscii "cat dog"
        [⟨"p", ["cat"], ""⟩] = ["p"] ∧
      ¬ specSearchKeeps pyLowerAscii pySplitAscii "cat dog" ⟨"p", ["cat"], ""⟩ := by
  constructor
  · rfl
  · decide

/-- C2 (amended): for every lowering and splitting function — in
particular Python's `str.lower()` and `str.split()` — the search keeps
exactly the records where *some* split token of the lowered query
occurs in some lowered tag, or the whole lowered query occurs in the
lowered OCR text. -/
theorem c2_search_membership (lower : String → String)
    (split : String → List String) (query : String)
    (metas : List ImageMeta) (p : String) :
    p ∈ semantic_search_placeholder lower split query metas ↔
      ∃ m ∈ metas, m.path = p ∧
        ((∃ w ∈ split (lower query),
            ∃ tg ∈ m.tags, strIn w.data (lower tg).data = true) ∨
          strIn (lower query).data (lower m.ocr_text).data = true) := by
  simp only [semantic_search_placeholder, List.mem_filterMap]
  constructor
  · rintro ⟨m, hm, hf⟩
    split at hf
    · rename_i hcond
      injection hf with hf
      refine ⟨m, hm, hf, ?_⟩
      simpa [List.any_eq_true] using hcond
    · exact absurd hf (by simp)
  · rintro ⟨m, hm, hp, hcond⟩
    refine ⟨m, hm, ?_⟩
    have hc : (((split (lower query)).any fun w =>
        m.tags.any fun tg => strIn w.data (lower tg).data) ||
        strIn (lower query).data (lower m.ocr_text).data) = true := by
      rcases hcond with ⟨w, hw, tg, htg, hs⟩ | hocr
      · have ha : ((split (lower query)).any fun w =>
            m.tags.any fun tg => strIn w.data (lower tg).data) = true :=
          List.any_eq_true.mpr ⟨w, hw, List.any_eq_true.mpr ⟨tg, htg, hs⟩⟩
        simp [ha]
      · simp [hocr]
    rw [hc]
    simp [hp]

/-! ## Claim C1 — tag filtering: `AND` semantics, but case-insensitively -/

/-- Refutes the case-sensitivity part of the claim: the camera-model
filter value `"canon"` matches the stored `"Canon EOS R5"` (SQLite
`LIKE` folds ASCII case), although `"canon"` is not a case-sensitive
substring of the stored value (the comparison predicate built from the
spec's words rejects it). -/
theorem c3_counterexample :
    get_images_by_metadata
        ⟨[⟨1, "/a.jpg", "2024-01-01", some "Canon EOS R5", none, none⟩], [], []⟩
        none none (some "canon") =
      [⟨1, "/a.jpg", "2024-01-01", some "Canon EOS R5", none, none⟩] ∧
    specCaseSensitiveSub "canon".data "Canon EOS R5".data = false := by
  exact ⟨rfl, rfl⟩

/-- **C3** (amended).  All supplied filter predicates do combine
conjunctively, and a wildcard-free filter value is matched as a literal
substring — but case-insensitively (ASCII folding), not
case-sensitively: in both store variants a `NULL` field fails the
predicate and a stored field matches iff the folded filter value occurs
as a contiguous substring of the folded field. -/
theorem c3_substring_filters (f : PhotoFilter) (r : PhotoRow)
    (v : String) (hv : ∀ c ∈ v.data, c ≠ '%' ∧ c ≠ '_')
    (db : NormDB) (i : ImageRow) (sd ed : Option String) :
    (rowMatches f r = true ↔
        (optCondS f.date_from (fun d => sqlGe r.date_taken d) = true ∧
         optCondS f.date_to (fun d => sqlLe r.date_taken d) = true ∧
         optCondS f.location (fun w => sqlLike r.location w) = true ∧
         optCondS f.camera_model (fun w => sqlLike r.camera_model w) = true ∧
         optCondL f.tags (fun ts2 => ts2.all fun t =>
           match r.tags with
           | none => false
           | some tj => likeMatch (tagLikePat t) tj.data) = true)) ∧
    (sqlLike r.camera_model v = true ↔
        ∃ cm, r.camera_model = some cm ∧
          (v.data.map asciiLower) <:+: (cm.data.map asciiLower)) ∧
    (sqlLike r.location v = true ↔
        ∃ lo, r.location = some lo ∧
          (v.data.map asciiLower) <:+: (lo.data.map asciiLower)) ∧
    (i ∈ get_images_by_metadata db sd ed (some v) ↔
        i ∈ db.images ∧
          optCondS sd (fun d => charListLe d.data i.capture_date.data) = true ∧
          optCondS ed (fun d => charListLe i.capture_date.data d.data) = true ∧
          (v = "" ∨ ∃ cm, i.camera_model = some cm ∧
            (v.data.map asciiLower) <:+: (cm.data.map asciiLower))) := by
  refine ⟨?_, ?_, ?_, ?_⟩
  · rw [rowMatches]
    simp only [Bool.and_eq_true, and_assoc]
  · cases hcm : r.camera_model with
    | none => simp [sqlLike]
    | some cm =>
      show likeMatch (likePat v) cm.data = true ↔ _
      rw [show likePat v = '%' :: (v.data ++ ['%']) from rfl,
        likeMatch_infix v.data hv cm.data]
      simp
  · cases hlo : r.location with
    | none => simp [sqlLike]
    | some lo =>
      show likeMatch (likePat v) lo.data = true ↔ _
      rw [show likePat v = '%' :: (v.data ++ ['%']) from rfl,
        likeMatch_infix v.data hv lo.data]
      simp
  · rw [get_images_by_metadata, List.mem_filter]
    simp only [Bool.and_eq_true, and_assoc]
    refine and_congr_right fun _ => and_congr_right fun _ => and_congr_right fun _ => ?_
    simp only [optCondS]
    by_cases hv0 : v = ""
    · rw [if_pos hv0]
      simp [hv0]
    · rw [if_neg hv0]
      cases hcm : i.camera_model with
      | none => simp [hv0]
      | some cm =>
        show likeMatch (likePat v) cm.data = true ↔ _
        rw [show likePat v = '%' :: (v.data ++ ['%']) from rfl,
          likeMatch_infix v.data hv cm.data]
        simp [hv0]

theorem c3_substring_filters_witness :
    sqlLike (some "Canon EOS R5") "canon" = true ↔
      ∃ cm, (some "Canon EOS R5" : Option String) = some cm ∧
        ("canon".data.map asciiLower) <:+: (cm.data.map asciiLower) :=
  (c3_substring_filters ⟨none, none, none, none, none⟩
    ⟨1, "/p.jpg", "p.jpg", none, none, some "Canon EOS R5", none⟩
    "canon" (by decide)
    ⟨[], [], []⟩ ⟨1, "/a.jpg", "2024-01-01", none, none, none⟩ none none).2.1

end PhotoAI
